import Mathlib

/-!
Verification development for the vault_finance transaction pipeline
(core/parser.py, core/categorizer.py, config/categories.py,
config/patterns.py).  Python strings are modelled as `List Char` /
`String`, floats and datetimes as `ℚ` (dates measured in days, so that
`timedelta(days = n)` is addition of `n`), and DataFrames as `List Tx`
with the positional index playing the role of the pandas integer index
(the orchestrator concatenates with `ignore_index=True`).
-/

set_option maxRecDepth 8000

namespace VaultFinance

/-- Word character of the Python regex word class, restricted to the ASCII
text this pipeline handles: letters, digits and underscore. -/
def isWordChar (c : Char) : Bool :=
  c.isAlphanum || c = '_'

/-- Whitespace, modelling the regex whitespace class and Python
`str.strip` / `str.split()` behaviour. -/
def isWS (c : Char) : Bool := c.isWhitespace

/-- Python `str.lower` on ASCII text. -/
def lowerL (s : List Char) : List Char := s.map Char.toLower

/-- Python `str.strip()`. -/
def stripL (s : List Char) : List Char :=
  ((s.dropWhile isWS).reverse.dropWhile isWS).reverse

/-- Python `str.split()` (split on whitespace runs, dropping empties). -/
def splitWSAux : List Char → List Char → List (List Char)
  | [], acc => if acc.isEmpty then [] else [acc.reverse]
  | c :: rest, acc =>
    if isWS c then
      if acc.isEmpty then splitWSAux rest []
      else acc.reverse :: splitWSAux rest []
    else splitWSAux rest (c :: acc)

def splitWS (s : List Char) : List (List Char) := splitWSAux s []

def isPrefixL : List Char → List Char → Bool
  | [], _ => true
  | _ :: _, [] => false
  | a :: as, b :: bs => a = b && isPrefixL as bs

/-- Python `needle in hay` substring test. -/
def containsSub (needle : List Char) : List Char → Bool
  | [] => needle.isEmpty
  | c :: rest => isPrefixL needle (c :: rest) || containsSub needle rest

/-- Length of the longest common prefix of two character lists. -/
def commonPrefLen : List Char → List Char → Nat
  | a :: as, b :: bs => if a = b then 1 + commonPrefLen as bs else 0
  | _, _ => 0

/-- Length of the longest common suffix of two character lists. -/
def commonSufLen (a b : List Char) : Nat := commonPrefLen a.reverse b.reverse

/-- Model of difflib `SequenceMatcher.find_longest_match` on a window
(passed here as the sliced lists), with no junk heuristic (the autojunk
heuristic only fires on strings of length ≥ 200, longer than any text this
code compares).  The reference implementation scans end positions in
ascending order and keeps the first strictly longer match, which is
equivalent to this fold. Returns (start in a, start in b, length). -/
def lmBest (a b : List Char) : Nat × Nat × Nat :=
  (List.range a.length).foldl (fun best ei =>
    (List.range b.length).foldl (fun best ej =>
      let k := commonSufLen (a.take (ei + 1)) (b.take (ej + 1))
      if best.2.2 < k then (ei + 1 - k, ej + 1 - k, k) else best) best)
    (0, 0, 0)

/-- Python slice `s[lo:hi]`. -/
def sliceL (s : List Char) (lo hi : Nat) : List Char := (s.drop lo).take (hi - lo)

/-- Model of difflib `get_matching_blocks` recursion (fuelled; the fuel
supplied by `matchingBlocks` bounds the recursion depth, which shrinks the
window at every call).  Blocks are produced already sorted by position;
the reference implementation's merge of adjacent blocks is omitted since
neither the total matched size nor the per-block diagonal offset `j - i`
(the only data consumed downstream) is affected by merging. -/
def mBlocks : Nat → List Char → List Char → Nat → Nat → Nat → Nat →
    List (Nat × Nat × Nat)
  | 0, _, _, _, _, _, _ => []
  | fuel + 1, a, b, alo, ahi, blo, bhi =>
    let r := lmBest (sliceL a alo ahi) (sliceL b blo bhi)
    let i := alo + r.1
    let j := blo + r.2.1
    let k := r.2.2
    if k = 0 then []
    else
      (if alo < i ∧ blo < j then mBlocks fuel a b alo i blo j else [])
      ++ [(i, j, k)]
      ++ (if i + k < ahi ∧ j + k < bhi then mBlocks fuel a b (i + k) ahi (j + k) bhi
          else [])

/-- Matching blocks of `SequenceMatcher(None, a, b)`, including the
terminal zero-length block. -/
def matchingBlocks (a b : List Char) : List (Nat × Nat × Nat) :=
  mBlocks (a.length + b.length + 1) a b 0 a.length 0 b.length
    ++ [(a.length, b.length, 0)]

/-- Total number of matched characters. -/
def matchSum (a b : List Char) : Nat :=
  ((matchingBlocks a b).map (fun t => t.2.2)).sum

/-- Kernel-computable helpers for rational arithmetic (the ambient
field operations on `ℚ` do not reduce inside `decide`; these are proved
equal to them below where proofs need the algebraic forms). -/
def qMul (a b : ℚ) : ℚ := mkRat (a.num * b.num) (a.den * b.den)

def qAdd (a b : ℚ) : ℚ := mkRat (a.num * b.den + b.num * a.den) (a.den * b.den)

def qSub (a b : ℚ) : ℚ := mkRat (a.num * b.den - b.num * a.den) (a.den * b.den)

def qMax (a b : ℚ) : ℚ := if a < b then b else a

def zMax (a b : ℤ) : ℤ := if a < b then b else a

/-- difflib `SequenceMatcher.ratio()` as an exact rational. -/
def ratioQ (a b : List Char) : ℚ :=
  if a.length + b.length = 0 then 1
  else mkRat (2 * (matchSum a b : ℤ)) (a.length + b.length)

/-- Floor of a rational, computed directly from its reduced fraction
(the denominator is positive, so flooring division is the floor). -/
def ratFloor (q : ℚ) : ℤ := Int.fdiv q.num q.den

/-- Python `int(round(x))` (round half to even), as fuzzywuzzy `utils.intr`. -/
def intr (q : ℚ) : ℤ :=
  let f := ratFloor q
  let r := mkRat (q.num - f * q.den) q.den
  if r < mkRat 1 2 then f
  else if mkRat 1 2 < r then f + 1
  else if f % 2 = 0 then f else f + 1

/-- fuzzywuzzy `fuzz.ratio` (difflib backend), including the
`check_empty_string` decorator that returns 0 when either side is empty. -/
def fuzzRatio (a b : List Char) : ℤ :=
  if a.length = 0 || b.length = 0 then 0
  else intr (qMul 100 (ratioQ a b))

/-- Per-block scores of fuzzywuzzy `fuzz.partial_ratio`: each matching
block of (shorter, longer) proposes the length-|shorter| window of the
longer string aligned with that block. -/
def partScores (shorter longer : List Char) : List ℚ :=
  (matchingBlocks shorter longer).map (fun blk =>
    let ls := blk.2.1 - blk.1
    ratioQ shorter (sliceL longer ls (ls + shorter.length)))

/-- fuzzywuzzy `fuzz.partial_ratio` (difflib backend). -/
def partRatio (x y : List Char) : ℤ :=
  if x.length = 0 || y.length = 0 then 0
  else
    let shorter := if x.length ≤ y.length then x else y
    let longer := if x.length ≤ y.length then y else x
    let scores := partScores shorter longer
    if scores.any (fun r => mkRat 199 200 < r) then 100
    else intr (qMul 100 (scores.foldl qMax 0))

/-- fuzzywuzzy `utils.full_process`: replace non word characters by
spaces, lowercase, strip. -/
def fullProcess (s : List Char) : List Char :=
  stripL (lowerL (s.map (fun c => if isWordChar c then c else ' ')))

/-- Lexicographic comparison of character lists (Python string `<=`). -/
def strLeL : List Char → List Char → Bool
  | [], _ => true
  | _ :: _, [] => false
  | a :: as, b :: bs => if a = b then strLeL as bs else decide (a < b)

def insertSorted (w : List Char) : List (List Char) → List (List Char)
  | [] => [w]
  | v :: vs => if strLeL w v then w :: v :: vs else v :: insertSorted w vs

/-- Python `sorted` on a list of strings. -/
def sortStrs : List (List Char) → List (List Char)
  | [] => []
  | w :: ws => insertSorted w (sortStrs ws)

/-- Python `" ".join(ws)`. -/
def joinSpace : List (List Char) → List Char
  | [] => []
  | [w] => w
  | w :: ws => w ++ ' ' :: joinSpace ws

/-- fuzzywuzzy `_process_and_sort`. -/
def processAndSort (s : List Char) : List Char :=
  stripL (joinSpace (sortStrs (splitWS (fullProcess s))))

/-- fuzzywuzzy `fuzz.token_sort_ratio` (full_process enabled). -/
def tokenSortRatio (x y : List Char) : ℤ :=
  fuzzRatio (processAndSort x) (processAndSort y)

/-! Phrase matching.  The keyword regexes of parser.py and categorizer.py
are alternations of phrases, each phrase a sequence of literal words
joined by one-or-more-whitespace; a phrase is modelled as a `List` of
lowercase words.  `re.search` without word anchors is `phraseSearch`;
the categorizer's priority patterns wrap the alternation in word
boundaries, modelled by `bPhraseSearch`. -/

/-- When the phrase matches at the head of `s`, the number of characters
it consumes (words joined by maximal whitespace runs, which is forced
since each word starts with a non-whitespace character). -/
def phraseAtLen : List (List Char) → List Char → Option Nat
  | [], _ => some 0
  | [w], s => if isPrefixL w s then some w.length else none
  | w :: ws, s =>
    if isPrefixL w s then
      let rest := s.drop w.length
      let k := (rest.takeWhile isWS).length
      if 0 < k then
        match phraseAtLen ws (rest.drop k) with
        | some n => some (w.length + k + n)
        | none => none
      else none
    else none

/-- Python `re.search` of a phrase with flexible whitespace, no anchors. -/
def phraseSearch (ws : List (List Char)) : List Char → Bool
  | [] => (phraseAtLen ws []).isSome
  | c :: rest => (phraseAtLen ws (c :: rest)).isSome || phraseSearch ws rest

/-- Word boundary between two neighbouring characters (string edges are
non-word): exactly one side is a word character. -/
def wordB (a b : Option Char) : Bool :=
  (a.elim false isWordChar) != (b.elim false isWordChar)

/-- Search for any of the alternative phrases, the whole alternation
wrapped in word boundaries, tracking the previous character. -/
def bPhraseSearchAux (alts : List (List (List Char))) :
    Option Char → List Char → Bool
  | prev, s =>
    (alts.any fun alt =>
      match phraseAtLen alt s with
      | some L =>
        0 < L && wordB prev (s.get? 0) && wordB (s.get? (L - 1)) (s.get? L)
      | none => false)
    || match s with
       | [] => false
       | c :: rest => bPhraseSearchAux alts (some c) rest

/-- Model of `re.search` for the categorizer's compiled priority patterns
of the shape `\b(alt|alt|...)\b`. -/
def bPhraseSearch (alts : List (List (List Char))) (s : List Char) : Bool :=
  bPhraseSearchAux alts none s

/-- Number of non-overlapping matches of `\b<literal keyword>\b` in `s`
(`regex.findall` as used for keyword scoring; multi-word keywords carry a
literal single space after `re.escape`).  Fuelled scan advancing by the
match length on a hit, one character otherwise. -/
def countKwAux (kw : List Char) : Nat → Option Char → List Char → Nat
  | 0, _, _ => 0
  | _, _, [] => 0
  | fuel + 1, prev, c :: rest =>
    let s := c :: rest
    if kw.isEmpty then 0
    else if isPrefixL kw s && wordB prev (some c)
        && wordB (s.get? (kw.length - 1)) (s.get? kw.length) then
      1 + countKwAux kw fuel (s.get? (kw.length - 1)) (s.drop kw.length)
    else countKwAux kw fuel (some c) rest

def countKw (kw s : List Char) : Nat := countKwAux kw (s.length + 1) none s

/-! Substitution engine for the hand-compiled regex replacements of
`normalize_merchant_name` and `TransactionDeduplicator.normalize_description`.
A matcher receives the current suffix and yields (consumed length,
replacement); `subAll` scans left to right, replacing non-overlapping
matches and continuing after each replacement, exactly as `re.sub`.
Anchored (`^`/`$`) patterns are applied as whole-string operations by
their own definitions below. -/

def subAllAux (m : List Char → Option (Nat × List Char)) :
    Nat → List Char → List Char
  | 0, s => s
  | _ + 1, [] => []
  | fuel + 1, c :: rest =>
    match m (c :: rest) with
    | some (k, rep) =>
      if k = 0 then c :: subAllAux m fuel rest
      else rep ++ subAllAux m fuel ((c :: rest).drop k)
    | none => c :: subAllAux m fuel rest

def subAll (m : List Char → Option (Nat × List Char)) (s : List Char) :
    List Char :=
  subAllAux m (s.length + 1) s

/-- Case-insensitive literal prefix test (the pattern literal is given in
lowercase). -/
def litPrefCI (lit s : List Char) : Bool :=
  isPrefixL lit (lowerL (s.take lit.length))

def wsRun (s : List Char) : Nat := (s.takeWhile isWS).length

def digitRun (s : List Char) : Nat := (s.takeWhile Char.isDigit).length

def wordRun (s : List Char) : Nat := (s.takeWhile isWordChar).length

/-! Matchers for the MERCHANT_PATTERNS table of config/patterns.py, in
dictionary order; each is applied as one full `re.sub` pass with
IGNORECASE.  Quantifiers are greedy exactly as in the reference patterns;
where a greedy run is followed by a character that cannot restart it the
maximal run is forced, which the comments note case by case. -/

/-- Matcher `AMAZON\.COM\*\w+` → `Amazon`. -/
def mAmazon1 (s : List Char) : Option (Nat × List Char) :=
  if litPrefCI "amazon.com*".data s then
    let w := wordRun (s.drop 11)
    if 0 < w then some (11 + w, "Amazon".data) else none
  else none

/-- Matcher `AMZN\s+MKTP` → `Amazon` (the whitespace run is maximal since
`mktp` starts with a non-whitespace character). -/
def mAmazon2 (s : List Char) : Option (Nat × List Char) :=
  if litPrefCI "amzn".data s then
    let w := wsRun (s.drop 4)
    if 0 < w ∧ litPrefCI "mktp".data (s.drop (4 + w)) then
      some (4 + w + 4, "Amazon".data)
    else none
  else none

/-- Matcher `WAL-MART.*` → `Walmart` (`.*` runs to the end of the text,
which contains no newline). -/
def mWalmart (s : List Char) : Option (Nat × List Char) :=
  if litPrefCI "wal-mart".data s then some (s.length, "Walmart".data) else none

/-- Matcher `TARGET\s+\d+` → `Target`. -/
def mTarget (s : List Char) : Option (Nat × List Char) :=
  if litPrefCI "target".data s then
    let w := wsRun (s.drop 6)
    let d := digitRun (s.drop (6 + w))
    if 0 < w ∧ 0 < d then some (6 + w + d, "Target".data) else none
  else none

/-- Matcher `STARBUCKS.*` → `Starbucks`. -/
def mStarbucks (s : List Char) : Option (Nat × List Char) :=
  if litPrefCI "starbucks".data s then some (s.length, "Starbucks".data)
  else none

/-- Matcher `MCDONALD\x27S.*` → `McDonald\x27s`. -/
def mMcdonalds (s : List Char) : Option (Nat × List Char) :=
  if litPrefCI "mcdonald\x27s".data s then
    some (s.length, "McDonald\x27s".data)
  else none

/-- Shared tail of the `TST\*\s*(.+)` and `SQ\*\s*(.+)` matchers: given
the text after the literal prefix, the captured group (greedy `\s*` backs
off one character when everything left is whitespace, so that `.+` is
nonempty). -/
def groupAfterWsStar (r : List Char) : Option (List Char) :=
  if r.isEmpty then none
  else
    let w := wsRun r
    if (r.drop w).isEmpty then some (r.drop (r.length - 1)) else some (r.drop w)

/-- Matcher `TST\*\s*(.+)` → `\1`. -/
def mTst (s : List Char) : Option (Nat × List Char) :=
  if litPrefCI "tst*".data s then
    (groupAfterWsStar (s.drop 4)).map (fun g => (s.length, g))
  else none

/-- Matcher `SQ\*\s*(.+)` → `\1`. -/
def mSq (s : List Char) : Option (Nat × List Char) :=
  if litPrefCI "sq*".data s then
    (groupAfterWsStar (s.drop 3)).map (fun g => (s.length, g))
  else none

/-- Matcher `\d{4}\s+(.+)` → `\1` (a fifth digit after the four makes the
position fail, since `\s+` cannot start on a digit; with only whitespace
after the digits, `\s+` backs off to leave one character for `.+`). -/
def mLead4 (s : List Char) : Option (Nat × List Char) :=
  if digitRun s = 4 then
    let r := s.drop 4
    let w := wsRun r
    if w = 0 then none
    else if (r.drop w).isEmpty then
      if 2 ≤ w then some (s.length, r.drop (r.length - 1)) else none
    else some (s.length, r.drop w)
  else none

/-- The nine MERCHANT_PATTERNS substitutions applied in dictionary order. -/
def applyMerchantPatterns (s : List Char) : List Char :=
  [mAmazon1, mAmazon2, mWalmart, mTarget, mStarbucks, mMcdonalds, mTst, mSq,
    mLead4].foldl (fun t m => subAll m t) s

/-- Model of `re.sub` for an anchored pattern `^(alt|alt|...)\s+` → empty,
case-insensitively; the alternatives are tried in order, each followed by
a required whitespace run. -/
def dropPrefAlts (alts : List (List (List Char))) (s : List Char) :
    List Char :=
  match alts.findSome? (fun alt =>
    match phraseAtLen alt (lowerL s) with
    | some L =>
      let w := wsRun (s.drop L)
      if 0 < w then some (L + w) else none
    | none => none) with
  | some k => s.drop k
  | none => s

/-- Does `\s+(w1|w2|...)$` match the whole of `s`? -/
def sufMatchAt (words : List (List Char)) (s : List Char) : Bool :=
  let w := wsRun s
  0 < w && words.any (fun word => lowerL (s.drop w) = word)

/-- Model of `re.sub` for `\s+(w1|w2|...)$` → empty: the earliest
position whose whitespace-then-word reaches the end is cut off. -/
def dropSufWords (words : List (List Char)) : List Char → List Char
  | [] => []
  | c :: rest =>
    if sufMatchAt words (c :: rest) then [] else c :: dropSufWords words rest

/-- Matcher `#\d+` → empty. -/
def mHashNum (s : List Char) : Option (Nat × List Char) :=
  match s with
  | '#' :: rest =>
    let d := digitRun rest
    if 0 < d then some (1 + d, []) else none
  | _ => none

/-- Model of `re.sub` for `\d{3,4}\s*$` → empty: the earliest position
holding exactly three or four digits followed only by whitespace is cut
(a longer digit run fails there, because neither `\s*` nor `$` accepts the
next digit after backtracking). -/
def dropTrailNum : List Char → List Char
  | [] => []
  | c :: rest =>
    let s := c :: rest
    let d := digitRun s
    if (d = 3 ∨ d = 4) ∧ (s.drop d).all isWS then []
    else c :: dropTrailNum rest

/-- Model of `re.sub` for `^\d{2,4}\s+` → empty (a digit run longer than
four fails: after backtracking the quantifier, `\s+` still faces a
digit). -/
def dropLeadNum (s : List Char) : List Char :=
  let d := digitRun s
  if (2 ≤ d ∧ d ≤ 4) ∧ 0 < wsRun (s.drop d) then s.drop (d + wsRun (s.drop d))
  else s

/-- Helper for `re.sub(r'\s+', ' ', s)`: collapse runs of spaces. -/
def collapseSpaces : List Char → List Char
  | [] => []
  | [c] => [c]
  | a :: b :: rest =>
    if a = ' ' ∧ b = ' ' then collapseSpaces (b :: rest)
    else a :: collapseSpaces (b :: rest)

/-- Python `re.sub(r'\s+', ' ', s)`. -/
def collapseWS (s : List Char) : List Char :=
  collapseSpaces (s.map (fun c => if isWS c then ' ' else c))

/-- `TransactionCategorizer.normalize_merchant_name` on string input:
strip, the nine merchant substitutions, then the five cleanup
substitutions in their listed order, then a final strip. -/
def normalizeMerchantName (desc : List Char) : List Char :=
  let d := stripL desc
  let d := applyMerchantPatterns d
  let d := dropPrefAlts
    [["debit".data, "card".data], ["credit".data, "card".data],
      ["online".data], ["web".data]] d
  let d := dropSufWords ["payment".data, "purchase".data, "transaction".data] d
  let d := subAll mHashNum d
  let d := dropTrailNum d
  let d := dropLeadNum d
  stripL d

/-- `TransactionDeduplicator.normalize_description` on string input. -/
def normalizeDescription (desc : List Char) : List Char :=
  let d := stripL (lowerL desc)
  let d := dropPrefAlts
    [["debit".data], ["credit".data], ["online".data], ["web".data],
      ["pos".data], ["purchase".data], ["payment".data],
      ["transaction".data]] d
  let d := dropSufWords
    ["payment".data, "purchase".data, "transaction".data, "charge".data] d
  let d := d.filter (fun c =>
    !(c.isDigit || c = '-' || c = '/' || c = '*' || c = '#'))
  stripL (collapseWS d)

/-- Helper turning a keyword phrase written with single spaces into its
word list. -/
def ph (s : String) : List (List Char) := splitWS s.data

/-- Income patterns of `_compile_priority_patterns`. -/
def incomePats : List (List (List Char)) :=
  ["deposit", "payroll", "salary", "refund", "reversal", "return", "credit",
    "direct deposit", "dividend", "interest earned", "payment received",
    "reimbursement"].map ph

/-- Transfer patterns of `_compile_priority_patterns`. -/
def transferPatsC : List (List (List Char)) :=
  ["transfer", "zelle", "venmo", "cash app", "paypal transfer",
    "wire transfer", "p2p", "person to person"].map ph

/-- Credit-card payment patterns of `_compile_priority_patterns`. -/
def ccPayPats : List (List (List Char)) :=
  ["payment thank you", "online payment", "autopay", "automatic payment",
    "credit card payment", "cc payment", "electronic payment"].map ph

/-- Fee patterns of `_compile_priority_patterns`. -/
def feePats : List (List (List Char)) :=
  ["fee", "charge", "overdraft", "maintenance", "service charge",
    "wire fee", "atm fee", "late fee"].map ph

/-- The known-merchants table of `fuzzy_match_merchant`, in dictionary
order. -/
def knownMerchants : List (String × String) :=
  [("amazon", "Shopping"), ("amzn", "Shopping"), ("apple", "Electronics"),
    ("microsoft", "Electronics"), ("google", "Electronics"),
    ("paypal", "Transfer"),
    ("walmart", "Groceries"), ("target", "Shopping"),
    ("costco", "Groceries"), ("best buy", "Electronics"),
    ("home depot", "Shopping"), ("lowes", "Shopping"),
    ("starbucks", "Food & Dining"), ("mcdonalds", "Food & Dining"),
    ("subway", "Food & Dining"), ("chipotle", "Food & Dining"),
    ("pizza", "Food & Dining"),
    ("shell", "Transportation"), ("exxon", "Transportation"),
    ("chevron", "Transportation"), ("bp", "Transportation"),
    ("uber", "Transportation"), ("lyft", "Transportation"),
    ("netflix", "Entertainment"), ("spotify", "Entertainment"),
    ("hulu", "Entertainment"), ("disney", "Entertainment"),
    ("walgreens", "Healthcare"), ("cvs", "Healthcare"),
    ("rite aid", "Healthcare"), ("pharmacy", "Healthcare")]

/-- One merchant examination of `fuzzy_match_merchant`: the larger of
partial and token-sort similarity, updating the best entry when the
threshold is reached and the score strictly improves. -/
def fuzzyStep (t : ℤ) (dl : List Char) (acc : Option String × ℤ)
    (m : String × String) : Option String × ℤ :=
  let score := zMax (partRatio m.1.data dl) (tokenSortRatio m.1.data dl)
  if t ≤ score ∧ acc.2 < score then (some m.2, score) else acc

/-- `TransactionCategorizer.fuzzy_match_merchant` on string input: for
each known merchant the larger of partial and token-sort similarity; the
first merchant reaching the threshold with a strictly best score wins. -/
def fuzzyMatchMerchant (description : List Char) (threshold : ℤ) :
    Option String :=
  if (stripL description).isEmpty then none
  else
    let t := if 0 ≤ threshold ∧ threshold ≤ 100 then threshold else 85
    let dl := lowerL description
    (knownMerchants.foldl (fuzzyStep t dl)
      ((none : Option String), (0 : ℤ))).1

/-- A Python float as the categorizer observes it: a finite value, a
signed infinity, or NaN.  `float()` on a string accepts the spellings
`inf`, `infinity` and `nan` besides numeric literals, so the amounts
flowing through the pipeline include the non-finite values. -/
inductive PyF where
  | fin (q : ℚ)
  | pinf
  | ninf
  | nan
deriving Repr, DecidableEq

/-- Negation of a Python float, the sign in front of a parsed literal;
`float("-nan")` is still `nan`. -/
def pyfNegate : PyF → PyF
  | PyF.fin q => PyF.fin (-q)
  | PyF.pinf => PyF.ninf
  | PyF.ninf => PyF.pinf
  | PyF.nan => PyF.nan

/-- Python `abs` on a float; `abs(nan)` is `nan`. -/
def pyfAbs : PyF → PyF
  | PyF.fin q => PyF.fin |q|
  | PyF.nan => PyF.nan
  | _ => PyF.pinf

/-- The comparison `0 < a` on a Python float: false for NaN. -/
def pyfPos : PyF → Bool
  | PyF.fin q => decide (0 < q)
  | PyF.pinf => true
  | _ => false

/-- The comparison `a < 0` on a Python float: false for NaN. -/
def pyfNeg : PyF → Bool
  | PyF.fin q => decide (q < 0)
  | PyF.ninf => true
  | _ => false

/-- The comparison `a < c` against a finite constant: false for NaN. -/
def pyfLtQ : PyF → ℚ → Bool
  | PyF.fin q, c => decide (q < c)
  | PyF.ninf, _ => true
  | _, _ => false

/-- The comparison `c ≤ a` against a finite constant: false for NaN. -/
def pyfQLe : ℚ → PyF → Bool
  | c, PyF.fin q => decide (c ≤ q)
  | _, PyF.pinf => true
  | _, _ => false

/-- The comparison `a ≤ c` against a finite constant: false for NaN. -/
def pyfLeQ : PyF → ℚ → Bool
  | PyF.fin q, c => decide (q ≤ c)
  | PyF.ninf, _ => true
  | _, _ => false

/-- The comparison `c < a` against a finite constant: false for NaN. -/
def pyfQLt : ℚ → PyF → Bool
  | c, PyF.fin q => decide (c < q)
  | _, PyF.pinf => true
  | _, _ => false

/-- `TransactionCategorizer.categorize_by_amount` (with a float amount and
string description, as reached from the multi-pass pipeline).  For a NaN
amount every branch guard is false and the chain falls through to `None`,
as the Python comparisons do. -/
def categorizeByAmount (amount : PyF) (description : List Char) :
    Option String :=
  let a := pyfAbs amount
  let dl := lowerL description
  if pyfLtQ a 5 then
    if bPhraseSearch feePats dl then some "Banking & Fees"
    else if ["coffee", "drink", "snack"].any (fun w => containsSub w.data dl)
      then some "Food & Dining"
    else if containsSub "tip".data dl then some "Food & Dining"
    else none
  else if pyfQLe 5 a ∧ pyfLeQ a 50 then
    if ["gas", "fuel", "station"].any (fun w => containsSub w.data dl) then
      some "Transportation"
    else if ["grocery", "food", "market"].any (fun w => containsSub w.data dl)
      then some "Groceries"
    else none
  else if pyfQLt 1000 a then
    if ["rent", "mortgage", "property"].any (fun w => containsSub w.data dl)
      then some "Bills & Utilities"
    else if ["hospital", "medical", "surgery", "emergency"].any
        (fun w => containsSub w.data dl) then some "Healthcare"
    else if ["tuition", "university", "college"].any
        (fun w => containsSub w.data dl) then some "Education"
    else none
  else none

/-- Abstract view of a Python datetime: only the observers the
categorizer consults (`weekday()` with Monday = 0, and `hour`). -/
structure PyDateTime where
  weekday : Nat
  hour : Nat
deriving Repr, DecidableEq

/-- `TransactionCategorizer.categorize_by_timing`. -/
def categorizeByTiming (description : List Char) (date : PyDateTime) :
    Option String :=
  let dl := lowerL description
  if 4 ≤ date.weekday ∧
      ["restaurant", "bar", "movie", "entertainment", "game",
        "theater"].any (fun w => containsSub w.data dl) then
    some "Entertainment"
  else if date.hour < 6 ∧
      ["autopay", "automatic", "recurring", "bill"].any
        (fun w => containsSub w.data dl) then
    some "Bills & Utilities"
  else none

/-- SPENDING_CATEGORIES of config/categories.py, each category's
subcategory keyword lists flattened in declaration order, as built by
`_compile_patterns`. -/
def spendingCategories : List (String × List String) :=
  [("Food & Dining",
    ["restaurant", "cafe", "bistro", "diner", "grill", "kitchen", "eatery",
      "pizzeria", "buffet", "mcdonalds", "burger king", "kfc", "taco bell",
      "subway", "chipotle", "panera", "chick-fil-a", "starbucks", "dunkin",
      "coffee", "espresso", "latte", "doordash", "ubereats", "grubhub",
      "postmates", "seamless", "delivery", "bar", "pub", "brewery",
      "tavern", "lounge", "wine bar", "dining", "food", "pizza"]),
   ("Groceries",
    ["walmart", "target", "costco", "sams club", "bjs", "aldi",
      "food lion", "whole foods", "sprouts", "fresh market",
      "trader joes", "grocery", "market", "supermarket", "food store",
      "safeway", "kroger", "publix"]),
   ("Transportation",
    ["shell", "exxon", "bp", "chevron", "mobil", "citgo", "gas station",
      "fuel", "gas", "uber", "lyft", "taxi", "cab", "parking", "garage",
      "meter", "valet", "metro", "bus", "train", "transit", "mta", "bart",
      "airline", "airways", "flight", "delta", "american airlines",
      "united", "southwest", "oil change", "tire", "mechanic",
      "auto repair", "car wash"]),
   ("Shopping",
    ["amazon", "ebay", "paypal", "apple.com", "google play", "target",
      "walmart", "kohls", "jcpenney", "sears", "nordstrom", "best buy",
      "apple store", "microsoft", "gamestop", "bestbuy", "gap",
      "old navy", "h&m", "zara", "nike", "adidas", "home depot", "lowes",
      "ikea", "bed bath beyond", "pier 1", "store", "shop", "retail",
      "purchase", "buy", "mall", "outlet"]),
   ("Bills & Utilities",
    ["electric", "electricity", "water", "gas company", "utility", "bill",
      "payment", "verizon", "att", "t-mobile", "sprint", "comcast",
      "xfinity", "internet", "cable", "phone", "insurance", "allstate",
      "geico", "progressive", "state farm", "rent", "mortgage",
      "property management", "hoa"]),
   ("Healthcare",
    ["hospital", "medical center", "clinic", "doctor", "physician",
      "medical", "health", "cvs", "walgreens", "rite aid", "pharmacy",
      "prescription", "dental", "dentist", "orthodontist", "eye care",
      "optometry", "vision", "eyeglasses"]),
   ("Entertainment",
    ["netflix", "hulu", "disney+", "amazon prime", "spotify",
      "apple music", "movie", "cinema", "theater", "amc", "regal",
      "steam", "playstation", "xbox", "nintendo", "gaming", "game", "gym",
      "fitness", "yoga", "pilates", "planet fitness",
      "24 hour fitness"]),
   ("Banking & Fees",
    ["fee", "charge", "overdraft", "maintenance", "service charge",
      "wire fee", "atm", "cash withdrawal", "atm fee", "interest charge",
      "finance charge", "late fee"]),
   ("Income",
    ["payroll", "salary", "direct deposit", "paycheck", "wages", "refund",
      "tax refund", "dividend", "interest earned", "cashback", "reward",
      "deposit", "reversal", "return", "credit", "income"]),
   ("Personal Care",
    ["salon", "spa", "barber", "nail", "massage", "cosmetics", "skincare",
      "shampoo"]),
   ("Education",
    ["university", "college", "school", "tuition", "bookstore",
      "textbook", "school supply"]),
   ("Travel",
    ["hotel", "motel", "resort", "airbnb", "booking.com", "airline",
      "train", "bus ticket", "car rental"])]

/-- Score of one category: ten points per keyword `findall` hit. -/
def categoryScore (kws : List String) (dl : List Char) : Nat :=
  (kws.map (fun kw => 10 * countKw kw.data dl)).sum

/-- Python `max` over scored pairs: the first maximal entry wins. -/
def pickMax (best y : String × Nat) : String × Nat :=
  if best.2 < y.2 then y else best

/-- Keyword-scoring fallback (step 9 of `multi_pass_categorization`):
categories with nonzero score in declaration order, Python `max` keeping
the first maximal entry. -/
def keywordBest (dl : List Char) : Option String :=
  let scored := spendingCategories.filterMap (fun p =>
    let s := categoryScore p.2 dl
    if 0 < s then some (p.1, s) else none)
  match scored with
  | [] => none
  | x :: xs => some (xs.foldl pickMax x).1

/-- `TransactionCategorizer.multi_pass_categorization` after its input
coercions: the ordered pipeline on a string description, float amount
(possibly infinite or NaN) and optional datetime. -/
def multiPass (description : List Char) (amount : PyF)
    (date : Option PyDateTime) : String :=
  let nd := normalizeMerchantName description
  let dl := lowerL nd
  if pyfPos amount ∧ bPhraseSearch incomePats dl then "Income"
  else if pyfNeg amount ∧ bPhraseSearch ccPayPats dl then "Bills & Utilities"
  else if bPhraseSearch transferPatsC dl then "Transfer"
  else if bPhraseSearch feePats dl then "Banking & Fees"
  else
    match fuzzyMatchMerchant nd 85 with
    | some c => c
    | none =>
      match categorizeByAmount amount nd with
      | some c => c
      | none =>
        match date.bind (fun d => categorizeByTiming nd d) with
        | some c => c
        | none =>
          match keywordBest dl with
          | some c => c
          | none => "Other"

/-- Python value reaching the categorizer's public entry point: a float,
a string, None, or some other object (of which only the `str()` rendering
is observable; `float()` on it raises TypeError). -/
inductive PyVal where
  | num (q : ℚ)
  | str (s : String)
  | pynone
  | other (shown : String)
deriving Repr, DecidableEq

def digitsVal (ds : List Char) : ℕ :=
  ds.foldl (fun a c => 10 * a + (c.toNat - 48)) 0

/-- Exponent part of a Python float literal: optional sign then digits,
consuming the whole remainder. -/
def pyExp : List Char → Option ℤ
  | '+' :: r => if !r.isEmpty && r.all Char.isDigit then some (digitsVal r)
      else none
  | '-' :: r => if !r.isEmpty && r.all Char.isDigit then
      some (-(digitsVal r : ℤ)) else none
  | r => if !r.isEmpty && r.all Char.isDigit then some (digitsVal r)
      else none

/-- Scale a rational by an integer power of ten. -/
def qMulPow10 (b : ℚ) (e : ℤ) : ℚ :=
  if 0 ≤ e then mkRat (b.num * (10 : ℤ) ^ e.toNat) b.den
  else mkRat b.num (b.den * 10 ^ (-e).toNat)

/-- Unsigned numeric body of a Python float literal: digits, optional
decimal point and fraction, optional exponent.  The `inf`/`nan`
spellings and the underscore separators are handled by `pyFloatBody`
before this function is reached. -/
def pyFloatCore (s : List Char) : Option ℚ :=
  let intPart := s.takeWhile Char.isDigit
  let r := s.drop intPart.length
  match r with
  | [] => if intPart.isEmpty then none else some (digitsVal intPart)
  | '.' :: r2 =>
    let frac := r2.takeWhile Char.isDigit
    let r3 := r2.drop frac.length
    if intPart.isEmpty ∧ frac.isEmpty then none
    else
      let base : ℚ := mkRat
        ((digitsVal intPart * 10 ^ frac.length + digitsVal frac : ℕ) : ℤ)
        (10 ^ frac.length)
      match r3 with
      | [] => some base
      | 'e' :: r4 => (pyExp r4).map (fun e => qMulPow10 base e)
      | 'E' :: r4 => (pyExp r4).map (fun e => qMulPow10 base e)
      | _ => none
  | 'e' :: r4 =>
    if intPart.isEmpty then none
    else (pyExp r4).map (fun e => qMulPow10 (digitsVal intPart : ℚ) e)
  | 'E' :: r4 =>
    if intPart.isEmpty then none
    else (pyExp r4).map (fun e => qMulPow10 (digitsVal intPart : ℚ) e)
  | _ => none

/-- Python `float(s)` restricted to strings over the digit, `.` and `-`
alphabet, the only strings `clean_amount` passes to it; on that alphabet
the `inf`/`nan`/underscore spellings cannot occur and the finite result
is exact.  Strip, optional sign, numeric body; `none` models a
ValueError.  The unrestricted entry point is `pyFloatFull` below. -/
def pyFloat (s : List Char) : Option ℚ :=
  match stripL s with
  | '+' :: r => pyFloatCore r
  | '-' :: r => (pyFloatCore r).map Neg.neg
  | r => pyFloatCore r

/-- Underscore validation of a Python numeric literal after the previous
character `prev`: each underscore must sit between two digits. -/
def usOkAfter (prev : Char) : List Char → Bool
  | [] => true
  | ['_'] => false
  | '_' :: d :: rest => prev.isDigit && d.isDigit && usOkAfter d rest
  | c :: rest => usOkAfter c rest

/-- Every underscore of the literal sits between two digits (the rule of
Python's number grammar: separators only inside a digit run). -/
def usOk : List Char → Bool
  | [] => true
  | '_' :: _ => false
  | c :: rest => usOkAfter c rest

/-- Unsigned body of `float()` on an arbitrary string: the spellings
`inf`, `infinity` and `nan` (case-insensitive), or a numeric literal
with its underscore separators validated and removed. -/
def pyFloatBody (r : List Char) : Option PyF :=
  let low := lowerL r
  if low = "inf".data ∨ low = "infinity".data then some PyF.pinf
  else if low = "nan".data then some PyF.nan
  else if usOk r then (pyFloatCore (r.filter (fun c => c ≠ '_'))).map PyF.fin
  else none

/-- Python `float(s)` on an arbitrary string: strip, optional sign,
body, including the non-finite spellings and underscore separators the
grammar accepts; `none` models a ValueError. -/
def pyFloatFull (s : List Char) : Option PyF :=
  match stripL s with
  | '+' :: r => pyFloatBody r
  | '-' :: r => (pyFloatBody r).map pyfNegate
  | r => pyFloatBody r

/-- Amount coercion at the head of `multi_pass_categorization`:
`float(amount) if amount is not None else 0.0`, with ValueError and
TypeError caught and replaced by 0.0. -/
def coerceAmount : PyVal → PyF
  | PyVal.num q => PyF.fin q
  | PyVal.str s => (pyFloatFull s.data).getD (PyF.fin 0)
  | PyVal.pynone => PyF.fin 0
  | PyVal.other _ => PyF.fin 0

/-- Description coercion of `multi_pass_categorization`:
`str(description) if description is not None else ""` when the input is
not already a string. -/
def coerceDesc : PyVal → String
  | PyVal.str s => s
  | PyVal.pynone => ""
  | PyVal.num q => toString q
  | PyVal.other r => r

/-- Public `categorize_transaction`: a fresh categorizer (whose custom
rules are empty and unused by the pipeline) applied to the coerced
inputs.  The surrounding try/except never fires in this model, since the
coercions make the pipeline total. -/
def categorizeTransaction (description amount : PyVal)
    (date : Option PyDateTime) : String :=
  multiPass (coerceDesc description).data (coerceAmount amount) date

/-- The closed category set of the specification's glossary. -/
def closedCategorySet : List String :=
  ["Food & Dining", "Groceries", "Transportation", "Shopping",
    "Bills & Utilities", "Healthcare", "Entertainment", "Banking & Fees",
    "Income", "Personal Care", "Education", "Travel", "Transfer", "Other"]

/-! Amount extraction of `extract_transactions_from_text` together with
`clean_amount` (parser.py) and the CHASE_PATTERNS amount dialects
(config/patterns.py).  Each amount dialect requires its text to sit
between `(?:^|\s)` and `(?:\s|$)`, so a match is exactly a
whitespace-delimited word of the dialect's shape. -/

/-- `clean_amount` on a string argument. -/
def cleanAmountL (s : List Char) : ℚ :=
  if s.isEmpty then 0
  else
    let t := stripL s
    if t.isEmpty then 0
    else
      let isNeg := t.head? = some '(' && t.getLast? = some ')'
      let cleaned := t.filter (fun c => c.isDigit || c = '.' || c = '-')
      let v? := if cleaned.isEmpty then some 0 else pyFloat cleaned
      match v? with
      | none => 0
      | some v => if isNeg then -|v| else v

/-- `clean_amount`, with `none` modelling a missing / NaN argument. -/
def cleanAmount : Option String → ℚ
  | none => 0
  | some s => cleanAmountL s.data

/-- Tail of the amount core after the leading digit group:
`(,\d{3})*\.\d{2}` to the end of the word.  A comma group holds exactly
three digits: a fourth digit would face the following comma or dot of the
pattern, which is checked here by the recursive call seeing that digit
where a separator is required. -/
def amtTail : List Char → Bool
  | ',' :: a :: b :: c :: rest =>
    a.isDigit && b.isDigit && c.isDigit && amtTail rest
  | '.' :: r => r.length = 2 && r.all Char.isDigit
  | _ => false

/-- Amount core `\d{1,3}(,\d{3})*\.\d{2}` spanning the whole word. -/
def amtCore (s : List Char) : Bool :=
  let d := digitRun s
  1 ≤ d && d ≤ 3 && amtTail (s.drop d)

/-- Dialect 1, `\$?\-?\d{1,3}(?:,\d{3})*\.\d{2}` as a full word. -/
def p1Word (w : List Char) : Bool :=
  let w1 := if w.head? = some '$' then w.drop 1 else w
  let w2 := if w1.head? = some '-' then w1.drop 1 else w1
  amtCore w2

/-- Dialect 2, `\(\$?\d{1,3}(?:,\d{3})*\.\d{2}\)` as a full word. -/
def p2Word (w : List Char) : Bool :=
  w.head? = some '(' && w.getLast? = some ')' && w.length ≥ 2 &&
    (let inner := (w.drop 1).dropLast
     let i2 := if inner.head? = some '$' then inner.drop 1 else inner
     amtCore i2)

/-- Dialect 3, `\-\$?\d{1,3}(?:,\d{3})*\.\d{2}` as a full word. -/
def p3Word (w : List Char) : Bool :=
  w.head? = some '-' &&
    (let r := w.drop 1
     let r2 := if r.head? = some '$' then r.drop 1 else r
     amtCore r2)

/-- `re.search` for one dialect: the first whitespace-delimited word of
the dialect's shape. -/
def findWord (p : List Char → Bool) (line : List Char) : Option (List Char) :=
  (splitWS line).find? p

/-- The ordered amount dialects of CHASE_PATTERNS. -/
def amtMatchers : List (List Char → Bool) := [p1Word, p2Word, p3Word]

/-- The amount loop of `extract_transactions_from_text`: each dialect in
order; a match always overwrites `amount_found`, and the loop stops at
the first match whose cleaned absolute value exceeds 0.01. -/
def amountLoop : List (List Char → Bool) → List Char → Option ℚ → Option ℚ
  | [], _, acc => acc
  | p :: ps, line, acc =>
    match findWord p line with
    | none => amountLoop ps line acc
    | some w =>
      let a := cleanAmountL w
      if mkRat 1 100 < |a| then some a else amountLoop ps line (some a)

/-- Amount attached to a line, `none` when the line yields no transaction
(no match, or a final match of absolute value below 0.01). -/
def amountOfLine (line : List Char) : Option ℚ :=
  match amountLoop amtMatchers line none with
  | none => none
  | some a => if |a| < mkRat 1 100 then none else some a

/-! Deduplicator (class TransactionDeduplicator of parser.py).  A
DataFrame row is a `Tx`; the list position is the pandas integer index
(the orchestrator concatenates with `ignore_index=True`, so indices are
0,1,2,…). -/

structure Tx where
  date : ℚ
  description : String
  amount : ℚ
  source : String
deriving Repr, DecidableEq

/-- credit_card_patterns of `TransactionDeduplicator.__init__`. -/
def ccPatterns : List (List (List Char)) :=
  ["payment thank you", "online payment", "autopay", "credit card payment",
    "cc payment", "automatic payment", "electronic payment",
    "chase credit crd", "discover payment", "capital one payment",
    "citi payment", "amex payment", "american express payment"].map ph

/-- transfer_patterns of `TransactionDeduplicator.__init__`. -/
def transferPatterns : List (List (List Char)) :=
  ["transfer to", "transfer from", "internal transfer", "account transfer",
    "online transfer", "zelle", "venmo", "cash app", "paypal transfer"].map ph

/-- Case-insensitive `re.search` of the alternation of the given
patterns (as in `is_credit_card_payment`, `is_transfer_transaction`, and
`str.contains` on the joined pattern list). -/
def matchesAny (pats : List (List (List Char))) (desc : String) : Bool :=
  pats.any (fun p => phraseSearch p (lowerL desc.data))

/-- `TransactionDeduplicator.is_credit_card_payment`. -/
def isCreditCardPayment (desc : String) (amount : ℚ) : Bool :=
  if 0 ≤ amount then false else matchesAny ccPatterns desc

/-- `TransactionDeduplicator.is_transfer_transaction`. -/
def isTransferTransaction (desc : String) : Bool :=
  matchesAny transferPatterns desc

/-- Comparison key of `find_exact_duplicates`:
the f-string `date_description_amount`. -/
def exactKey (t : Tx) : String :=
  toString t.date ++ "_" ++ t.description ++ "_" ++ toString t.amount

/-- `find_exact_duplicates`: indices marked by
`duplicated(keep='first')` — rows with an earlier row of equal key. -/
def findExactDuplicates (txs : List Tx) : List Nat :=
  (txs.enum.filter (fun p =>
    txs.enum.any (fun q =>
      decide (q.1 < p.1) && decide (exactKey q.2 = exactKey p.2)))).map
    Prod.fst

/-- Payment record collected by `handle_credit_card_duplicates`. -/
structure CCPayment where
  index : Nat
  amount : ℚ
  date : ℚ
  description : String
deriving Repr, DecidableEq

/-- The credit_card_info report of `handle_credit_card_duplicates`. -/
structure CCInfo where
  paymentsFound : Nat
  chargesCovered : Nat
  unmatched : List CCPayment
deriving Repr, DecidableEq

/-- All credit-card payments of the frame, in index order. -/
def ccPaymentsOf (txs : List Tx) : List CCPayment :=
  txs.enum.filterMap (fun p =>
    if isCreditCardPayment p.2.description p.2.amount then
      some ⟨p.1, |p.2.amount|, p.2.date, p.2.description⟩
    else none)

/-- Candidate charges for one payment: rows dated within
`[payment_date - 45 days, payment_date + 2 days]`, with negative amount,
not the payment row itself, and whose description matches neither the
credit-card nor the transfer patterns. -/
def ccChargeRows (txs : List Tx) (pay : CCPayment) : List (Nat × Tx) :=
  txs.enum.filter (fun q =>
    decide (qSub pay.date 45 ≤ q.2.date) && decide (q.2.date ≤ qAdd pay.date 2)
    && decide (q.2.amount < 0) && decide (q.1 ≠ pay.index)
    && !(matchesAny (ccPatterns ++ transferPatterns) q.2.description))

/-- `abs(potential_charges['amount'].sum())`. -/
def ccTotalCharges (txs : List Tx) (pay : CCPayment) : ℚ :=
  |(ccChargeRows txs pay).foldl (fun s q => qAdd s q.2.amount) 0|

/-- The 15% test `abs(total_charges - payment_amount)
<= payment_amount * tolerance` with the hardcoded `tolerance = 0.15`. -/
def ccDecision (txs : List Tx) (pay : CCPayment) : Bool :=
  |qSub (ccTotalCharges txs pay) pay.amount| ≤ qMul pay.amount (mkRat 15 100)

/-- One payment examination of `handle_credit_card_duplicates`; the
accumulator carries (duplicates_to_remove, charges_covered,
unmatched_payments). -/
def ccStep (txs : List Tx) (acc : List Nat × Nat × List CCPayment)
    (pay : CCPayment) : List Nat × Nat × List CCPayment :=
  if (ccChargeRows txs pay).isEmpty then (acc.1, acc.2.1, acc.2.2 ++ [pay])
  else if ccDecision txs pay then
    (acc.1 ++ [pay.index], acc.2.1 + (ccChargeRows txs pay).length, acc.2.2)
  else (acc.1, acc.2.1, acc.2.2 ++ [pay])

/-- `handle_credit_card_duplicates`: per payment in index order, an empty
candidate set or a failed 15% test records the payment as unmatched,
otherwise the payment row index is marked for removal. -/
def handleCreditCardDuplicates (txs : List Tx) : List Nat × CCInfo :=
  let pays := ccPaymentsOf txs
  let r := pays.foldl (ccStep txs)
    (([] : List Nat), (0 : Nat), ([] : List CCPayment))
  (r.1, ⟨pays.length, r.2.1, r.2.2⟩)

/-- The transfer-keyword rows of the frame, in index order. -/
def transferRows (txs : List Tx) : List (Nat × Tx) :=
  txs.enum.filter (fun p => matchesAny transferPatterns p.2.description)

/-- One iteration of the `handle_transfer_duplicates` loop; the
accumulator carries (duplicates_to_remove, processed_transfers). -/
def transferStep (rows : List (Nat × Tx)) (acc : List Nat × List Nat)
    (p : Nat × Tx) : List Nat × List Nat :=
  if p.1 ∈ acc.2 then acc
  else
    let ms := rows.filter (fun q =>
      decide (q.2.date = p.2.date) && decide (|q.2.amount| = |p.2.amount|)
      && decide (q.1 ≠ p.1))
    if ms.isEmpty then acc
    else
      let acc2 := ms.foldl (fun a q =>
        if q.1 ∈ a.2 then a else (a.1 ++ [q.1], a.2 ++ [q.1])) acc
      (acc2.1, acc2.2 ++ [p.1])

/-- `handle_transfer_duplicates`. -/
def handleTransferDuplicates (txs : List Tx) : List Nat :=
  (transferRows txs).foldl (transferStep (transferRows txs)) ([], []) |>.1

/-- One candidate examination of `find_similar_transactions` (defaults:
date window 2 days, amount tolerance 1%, description threshold 85). -/
def similarStep (rows : List (Nat × Tx)) (acc : List Nat × List Nat)
    (p : Nat × Tx) : List Nat × List Nat :=
  if p.1 ∈ acc.2 then acc
  else
    let cands := rows.filter (fun q =>
      decide (qSub p.2.date 2 ≤ q.2.date) && decide (q.2.date ≤ qAdd p.2.date 2)
      && decide (q.1 ≠ p.1))
    cands.foldl (fun a q =>
      if q.1 ∈ a.2 then a
      else
        let amountSimilar :=
          decide (abs (qSub (abs p.2.amount) (abs q.2.amount)) ≤
            qMax (qMul (abs p.2.amount) (mkRat 1 100)) 1)
        let rDesc := normalizeDescription p.2.description.data
        let cDesc := normalizeDescription q.2.description.data
        let sim : ℤ :=
          if !rDesc.isEmpty && !cDesc.isEmpty then fuzzRatio rDesc cDesc else 0
        if amountSimilar && decide (85 ≤ sim) && decide (p.1 < q.1) then
          (a.1 ++ [q.1], a.2 ++ [q.1])
        else a) acc

/-- `find_similar_transactions` with its default parameters. -/
def findSimilarTransactions (txs : List Tx) : List Nat :=
  (txs.enum.foldl (similarStep txs.enum) ([], [])).1

/-- Drop the rows whose index lies in the removal set, keeping the
remaining rows in order (`df.drop(index=...)` followed by
`reset_index(drop=True)`). -/
def removeIdxs (txs : List Tx) (idxs : List Nat) : List Tx :=
  (txs.enum.filter (fun p => !(p.1 ∈ idxs : Bool))).map Prod.snd

/-- `TransactionDeduplicator.remove_duplicates`: the four passes all
inspect the same unfiltered frame, their removal sets are unioned, and
the union is dropped once at the end. -/
def removeDuplicates (txs : List Tx) (rcc rtr aggr : Bool) : List Tx :=
  if txs.isEmpty then txs
  else
    let d1 := findExactDuplicates txs
    let d2 := if rcc then (handleCreditCardDuplicates txs).1 else []
    let d3 := if rtr then handleTransferDuplicates txs else []
    let d4 := if aggr then findSimilarTransactions txs else []
    removeIdxs txs (d1 ++ d2 ++ d3 ++ d4)

/-- The deduplication configuration dictionary of `parse_pdf_statement`
(its default values are those of the literal default dict; the field
names follow the dict keys `cc_date_window`, `cc_amount_tolerance`,
`fuzzy_date_window`, `description_threshold`). -/
structure DedupConfig where
  removeCreditCardDuplicates : Bool
  removeTransferDuplicates : Bool
  aggressiveDeduplication : Bool
  ccDateWindow : ℕ
  ccAmountTolerance : ℚ
  fuzzyDateWindow : ℕ
  descriptionThreshold : ℕ
deriving Repr, DecidableEq

def defaultDedupConfig : DedupConfig :=
  ⟨true, true, false, 45, mkRat 15 100, 2, 85⟩

/-- `drop_duplicates(subset=['date', 'description', 'amount'],
keep='first')` used on single-file batches. -/
def dropDupSubset (txs : List Tx) : List Tx :=
  (txs.enum.filter (fun p =>
    !(txs.enum.any (fun q =>
      decide (q.1 < p.1) && decide (q.2.date = p.2.date)
      && decide (q.2.description = p.2.description)
      && decide (q.2.amount = p.2.amount))))).map Prod.snd

/-- The deduplication step of `parse_pdf_statement` (lines 653–683): with
more than one file or aggressive mode the full deduplicator runs, handed
only the three boolean options of the configuration; otherwise only exact
subset duplicates are dropped.  The `cc_date_window`,
`cc_amount_tolerance`, `fuzzy_date_window` and `description_threshold`
entries of the configuration are never read. -/
def applyDedup (cfg : DedupConfig) (nfiles : ℕ) (combined : List Tx) :
    List Tx :=
  if 1 < nfiles ∨ cfg.aggressiveDeduplication then
    removeDuplicates combined cfg.removeCreditCardDuplicates
      cfg.removeTransferDuplicates cfg.aggressiveDeduplication
  else dropDupSubset combined

/-! Comparison definitions written from the specification's words, for
the refinement claims that the code contradicts; each is used only to
exhibit the divergence. -/

/-- Stated from the specification's sentence for comparison (claim C3):
the four passes with every row removed by an earlier pass dropped before
the next pass runs. -/
def removeDuplicatesSeq (txs : List Tx) (rcc rtr aggr : Bool) : List Tx :=
  if txs.isEmpty then txs
  else
    let t1 := removeIdxs txs (findExactDuplicates txs)
    let t2 := if rcc then removeIdxs t1 (handleCreditCardDuplicates t1).1
      else t1
    let t3 := if rtr then removeIdxs t2 (handleTransferDuplicates t2) else t2
    if aggr then removeIdxs t3 (findSimilarTransactions t3) else t3

/-- Stated from the specification for comparison (claim C4): the
candidate-charge window with its length drawn from the configuration's
`cc_date_window` instead of the hardcoded 45 days. -/
def specConfiguredChargeRows (window : ℕ) (txs : List Tx) (pay : CCPayment) :
    List (Nat × Tx) :=
  txs.enum.filter (fun q =>
    decide (qSub pay.date (window : ℚ) ≤ q.2.date)
    && decide (q.2.date ≤ qAdd pay.date 2)
    && decide (q.2.amount < 0) && decide (q.1 ≠ pay.index)
    && !(matchesAny (ccPatterns ++ transferPatterns) q.2.description))

/-- Stated from the specification for comparison (claim C4): the
payment-cycle test with window and tolerance drawn from the
configuration. -/
def specConfiguredDecision (window : ℕ) (tol : ℚ) (txs : List Tx)
    (pay : CCPayment) : Bool :=
  |qSub (abs ((specConfiguredChargeRows window txs pay).foldl
    (fun s q => qAdd s q.2.amount) 0)) pay.amount| ≤ qMul pay.amount tol

/-- Characterisation helper for the amount loop: the first dialect whose
match strictly exceeds 0.01 in absolute value, with its cleaned value. -/
def firstExceeding (line : List Char) : Option ℚ :=
  amtMatchers.findSome? (fun p =>
    match findWord p line with
    | some w =>
      if mkRat 1 100 < |cleanAmountL w| then some (cleanAmountL w) else none
    | none => none)

/-- Characterisation helper for the amount loop: the cleaned value of the
last dialect that matches at all. -/
def lastDialectMatch (line : List Char) : Option ℚ :=
  (amtMatchers.filterMap (fun p => (findWord p line).map cleanAmountL)).getLast?

/-! Concrete frames used by witnesses and counterexamples.  Dates are in
days. -/

/-- Payment of 500 with window charges of 200 and 310 (sum 510). -/
def exC1a : List Tx :=
  [⟨100, "online payment", -500, "a.pdf"⟩,
   ⟨80, "coffee aaa", -200, "a.pdf"⟩,
   ⟨90, "shop bbb", -310, "b.pdf"⟩]

/-- Payment of 500 with a single window charge of 300. -/
def exC1b : List Tx :=
  [⟨100, "online payment", -500, "a.pdf"⟩,
   ⟨90, "coffee aaa", -300, "a.pdf"⟩]

/-- A payment whose pass-2 charge sum only reaches the tolerance thanks
to a row that pass 1 already removed as an exact duplicate. -/
def exC3 : List Tx :=
  [⟨10, "autopay", -100, "a.pdf"⟩,
   ⟨5, "coffee", -50, "a.pdf"⟩,
   ⟨5, "coffee", -50, "b.pdf"⟩]

/-- Payment of 100 with one window charge of 60 (within a configured
100% tolerance, outside the hardcoded 15%). -/
def exC4 : List Tx :=
  [⟨50, "online payment", -100, "a.pdf"⟩,
   ⟨40, "coffee shop", -60, "b.pdf"⟩]

/-- Configuration whose `cc_amount_tolerance` is 1.0 (100%). -/
def cfgTol1 : DedupConfig := ⟨true, true, false, 45, 1, 2, 85⟩

/-- Configuration whose `cc_date_window` is 3 days. -/
def cfgWin3 : DedupConfig := ⟨true, true, false, 3, mkRat 15 100, 2, 85⟩

/-- Rows sharing a transfer grouping key: equal date and equal absolute
amount (the comparison of `handle_transfer_duplicates`, stated from the
viewpoint of current row `p` examining candidate `q`). -/
def sameKeyP (p q : Nat × Tx) : Prop :=
  q.2.date = p.2.date ∧ |q.2.amount| = |p.2.amount|


/-! Bridging lemmas between the kernel-computable arithmetic helpers and
the ambient field operations on `ℚ`. -/

theorem qAdd_eq (a b : ℚ) : qAdd a b = a + b := (Rat.add_def' a b).symm

theorem qSub_eq (a b : ℚ) : qSub a b = a - b := (Rat.sub_def' a b).symm

theorem qMul_eq (a b : ℚ) : qMul a b = a * b := by
  rw [show a * b = mkRat a.num a.den * mkRat b.num b.den by
      rw [Rat.mkRat_self, Rat.mkRat_self],
    Rat.mkRat_mul_mkRat]
  rfl

theorem mkRat_15_100 : (mkRat 15 100 : ℚ) = 15 / 100 := by
  rw [Rat.mkRat_eq_div]; norm_num

/-! Structural facts about the deduplicator used by several claims. -/

theorem filter_enumFrom_sublist (p : Nat × Tx → Bool) :
    ∀ (txs : List Tx) (n : Nat),
      List.Sublist (((List.enumFrom n txs).filter p).map Prod.snd) txs := by
  intro txs
  induction txs with
  | nil => intro n; simp
  | cons t rest ih =>
    intro n
    rw [show List.enumFrom n (t :: rest) = (n, t) :: List.enumFrom (n + 1) rest
      from rfl, List.filter_cons]
    by_cases h : p (n, t)
    · simp only [h, if_true, List.map_cons]
      exact (ih (n + 1)).cons₂ t
    · simp only [h, if_false]
      exact (ih (n + 1)).cons t

theorem removeIdxs_sublist (txs : List Tx) (idxs : List Nat) :
    List.Sublist (removeIdxs txs idxs) txs :=
  filter_enumFrom_sublist _ txs 0

/-- Claim C9: deduplication never creates or mutates a transaction: for
every frame and every configuration the output of `remove_duplicates` is
a sublist of the input (whole rows of the input, kept field for field and
in their original order), so every output row equals an input row; the
caller's frame itself is untouched, which in this pure embedding is
expressed by the output being computed from the input value alone. -/
theorem c9_dedup_only_removes_rows (txs : List Tx) (rcc rtr aggr : Bool) :
    List.Sublist (removeDuplicates txs rcc rtr aggr) txs ∧
      ∀ t ∈ removeDuplicates txs rcc rtr aggr, t ∈ txs := by
  have h : List.Sublist (removeDuplicates txs rcc rtr aggr) txs := by
    rw [removeDuplicates]
    split
    · exact List.Sublist.refl txs
    · exact removeIdxs_sublist txs _
  exact ⟨h, fun t ht => h.subset ht⟩

/-! Helper lemmas on character lists for the amount claims. -/

theorem mem_of_dropWhile {p : Char → Bool} :
    ∀ (l : List Char) (c : Char), c ∈ l.dropWhile p → c ∈ l := by
  intro l
  induction l with
  | nil => intro c h; simp at h
  | cons a rest ih =>
    intro c h
    rw [List.dropWhile_cons] at h
    by_cases hp : p a
    · simp only [hp, if_true] at h
      exact List.mem_cons_of_mem a (ih c h)
    · simp only [hp, if_false] at h
      exact h

theorem mem_of_stripL (s : List Char) (c : Char) (h : c ∈ stripL s) :
    c ∈ s := by
  rw [stripL] at h
  rw [List.mem_reverse] at h
  have h2 := mem_of_dropWhile _ c h
  rw [List.mem_reverse] at h2
  exact mem_of_dropWhile _ c h2

theorem no_digit_pyFloatCore (s : List Char)
    (h : ∀ c ∈ s, c.isDigit = false) : pyFloatCore s = none := by
  have hint : s.takeWhile Char.isDigit = [] := by
    cases s with
    | nil => rfl
    | cons c cs =>
      rw [List.takeWhile_cons, h c (List.mem_cons_self c cs)]
      rfl
  rw [pyFloatCore, hint]
  simp only [List.drop_zero, List.length_nil]
  cases s with
  | nil => rfl
  | cons c cs =>
    have hc := h c (List.mem_cons_self c cs)
    have hcs : ∀ x ∈ cs, x.isDigit = false :=
      fun x hx => h x (List.mem_cons_of_mem c hx)
    have hfrac : cs.takeWhile Char.isDigit = [] := by
      cases cs with
      | nil => rfl
      | cons d ds =>
        rw [List.takeWhile_cons, hcs d (List.mem_cons_self d ds)]
        rfl
    by_cases h1 : c = '.'
    · subst h1
      simp [hfrac]
    · by_cases h2 : c = 'e'
      · subst h2; rfl
      · by_cases h3 : c = 'E'
        · subst h3; rfl
        · split
          · rfl
          · rename_i heq; rw [List.cons.injEq] at heq
            exact absurd heq.1 h1
          · rename_i heq; rw [List.cons.injEq] at heq
            exact absurd heq.1 h2
          · rename_i heq; rw [List.cons.injEq] at heq
            exact absurd heq.1 h3
          · rfl

theorem no_digit_pyFloat (s : List Char)
    (h : ∀ c ∈ s, c.isDigit = false) : pyFloat s = none := by
  have hs : ∀ c ∈ stripL s, c.isDigit = false :=
    fun c hc => h c (mem_of_stripL s c hc)
  rw [pyFloat]
  cases hstrip : stripL s with
  | nil => exact no_digit_pyFloatCore [] (by intro c hc; simp at hc)
  | cons c cs =>
    have hcs : ∀ x ∈ cs, x.isDigit = false := by
      intro x hx
      exact hs x (by rw [hstrip]; exact List.mem_cons_of_mem c hx)
    have hall : ∀ x ∈ c :: cs, x.isDigit = false := by
      intro x hx; exact hs x (by rw [hstrip]; exact hx)
    by_cases h1 : c = '+'
    · subst h1
      exact no_digit_pyFloatCore cs hcs
    · by_cases h2 : c = '-'
      · subst h2
        show Option.map Neg.neg (pyFloatCore cs) = none
        rw [no_digit_pyFloatCore cs hcs]
        rfl
      · split
        · rename_i heq; rw [List.cons.injEq] at heq
          exact absurd heq.1 h1
        · rename_i heq; rw [List.cons.injEq] at heq
          exact absurd heq.1 h2
        · exact no_digit_pyFloatCore _ hall

/-- Shared: a cleaned amount whose stripped text is wrapped in
parentheses is never positive (the parenthesis branch negates the
absolute value). -/
theorem cleanAmountL_paren_nonpos (w : List Char)
    (h1 : (stripL w).head? = some '(')
    (h2 : (stripL w).getLast? = some ')') : cleanAmountL w ≤ 0 := by
  rw [cleanAmountL]
  split
  · exact le_refl 0
  · dsimp only
    split
    · exact le_refl 0
    · rw [h1, h2]
      split
      · exact le_refl 0
      · simp

/-- Shared: a digit-free argument cleans to zero. -/
theorem cleanAmountL_no_digit (s : List Char)
    (hnd : ∀ c ∈ s, c.isDigit = false) : cleanAmountL s = 0 := by
  rw [cleanAmountL]
  split
  · rfl
  · dsimp only
    split
    · rfl
    · have hcl : ∀ c ∈ (stripL s).filter
          (fun c => c.isDigit || c = '.' || c = '-'), c.isDigit = false :=
        fun c hc => hnd c (mem_of_stripL s c (List.mem_of_mem_filter hc))
      split
      · rfl
      · rename_i v heq
        split at heq
        · rw [Option.some.injEq] at heq
          subst heq
          split
          · simp
          · rfl
        · exact absurd heq (by rw [no_digit_pyFloat _ hcl]; simp)

/-- Claim C10: `clean_amount` is total and exception-free by
construction: a missing/NaN argument yields 0.0; a string without digits
yields 0.0; a string whose stripped text is wrapped in parentheses yields
the negation of an absolute value, hence never a positive number; and the
concrete dialects parse as expected. -/
theorem c10_clean_amount_total (s t : String)
    (hnd : ∀ c ∈ s.data, c.isDigit = false)
    (h1 : (stripL t.data).head? = some '(')
    (h2 : (stripL t.data).getLast? = some ')') :
    cleanAmount none = 0 ∧ cleanAmount (some s) = 0 ∧
      cleanAmount (some t) ≤ 0 ∧
      cleanAmount (some "(123.45)") = -(mkRat 12345 100) ∧
      cleanAmount (some "$1,234.56") = mkRat 123456 100 ∧
      cleanAmount (some "") = 0 :=
  ⟨rfl, cleanAmountL_no_digit s.data hnd,
    cleanAmountL_paren_nonpos t.data h1 h2, by decide, by decide, by decide⟩

/-- Witness for C10 at concrete inputs: a digit-free string cleans to
zero and a parenthesised string cleans to a non-positive value. -/
theorem c10_clean_amount_total_witness :
    cleanAmount (some "xyz-") = 0 ∧ cleanAmount (some "(12.00)") ≤ 0 := by
  have h := c10_clean_amount_total "xyz-" "(12.00)" (by decide) (by decide)
    (by decide)
  exact ⟨h.2.1, h.2.2.1⟩

/-! Amount-loop characterisation (claim C7). -/

theorem splitWSAux_words (s : List Char) : ∀ (acc : List Char),
    (∀ c ∈ acc, isWS c = false) →
    ∀ w ∈ splitWSAux s acc, w ≠ [] ∧ ∀ c ∈ w, isWS c = false := by
  induction s with
  | nil =>
    intro acc hacc w hw
    rw [splitWSAux] at hw
    split at hw
    · simp at hw
    · rename_i hne
      rw [List.mem_singleton] at hw
      subst hw
      constructor
      · simp only [ne_eq, List.reverse_eq_nil_iff]
        exact fun h => hne (by rw [h]; rfl)
      · intro c hc
        exact hacc c (List.mem_reverse.mp hc)
  | cons a rest ih =>
    intro acc hacc w hw
    rw [splitWSAux] at hw
    by_cases ha : isWS a
    · simp only [ha, if_true] at hw
      split at hw
      · exact ih [] (by intro c hc; simp at hc) w hw
      · rename_i hne
        rw [List.mem_cons] at hw
        rcases hw with hw | hw
        · subst hw
          refine ⟨?_, fun c hc => hacc c (List.mem_reverse.mp hc)⟩
          simp only [ne_eq, List.reverse_eq_nil_iff]
          exact fun h => hne (by rw [h]; rfl)
        · exact ih [] (by intro c hc; simp at hc) w hw
    · simp only [ha, if_false] at hw
      refine ih (a :: acc) ?_ w hw
      intro c hc
      rcases List.mem_cons.mp hc with hc | hc
      · subst hc; simpa using ha
      · exact hacc c hc

theorem splitWS_words (s : List Char) (w : List Char) (hw : w ∈ splitWS s) :
    w ≠ [] ∧ ∀ c ∈ w, isWS c = false :=
  splitWSAux_words s [] (by intro c hc; simp at hc) w hw

theorem stripL_of_no_ws (w : List Char) (h : ∀ c ∈ w, isWS c = false) :
    stripL w = w := by
  have hdw : ∀ (l : List Char), (∀ c ∈ l, isWS c = false) →
      l.dropWhile isWS = l := by
    intro l hl
    cases l with
    | nil => rfl
    | cons a r =>
      rw [List.dropWhile_cons, hl a (List.mem_cons_self a r)]
      rfl
  rw [stripL, hdw w h, hdw w.reverse (fun c hc => h c (List.mem_reverse.mp hc)),
    List.reverse_reverse]

theorem amountLoop_eq (line : List Char) :
    ∀ (ps : List (List Char → Bool)) (acc : Option ℚ),
    amountLoop ps line acc =
      match ps.findSome? (fun p =>
        match findWord p line with
        | some w =>
          if mkRat 1 100 < |cleanAmountL w| then some (cleanAmountL w) else none
        | none => none) with
      | some v => some v
      | none =>
        match (ps.filterMap
            (fun p => (findWord p line).map cleanAmountL)).getLast? with
        | some v => some v
        | none => acc := by
  intro ps
  induction ps with
  | nil => intro acc; rfl
  | cons p ps ih =>
    intro acc
    rw [amountLoop, List.findSome?_cons, List.filterMap_cons]
    cases hf : findWord p line with
    | none =>
      dsimp only
      exact ih acc
    | some w =>
      dsimp only
      by_cases hb : mkRat 1 100 < |cleanAmountL w|
      · rw [if_pos hb]
        rw [if_pos hb]
      · rw [if_neg hb, if_neg hb, ih (some (cleanAmountL w))]
        cases hfs : ps.findSome? (fun p =>
          match findWord p line with
          | some w =>
            if mkRat 1 100 < |cleanAmountL w| then some (cleanAmountL w)
            else none
          | none => none) with
        | some v => rfl
        | none =>
          dsimp only
          cases hgl : (ps.filterMap
              (fun p => (findWord p line).map cleanAmountL)) with
          | nil => rfl
          | cons x xs =>
            simp only [Option.map_some']
            rw [List.getLast?_cons_cons]
            cases hgl2 : (x :: xs).getLast? with
            | some v => rfl
            | none => exact absurd hgl2 (by simp)

theorem firstExceeding_bound (line : List Char) (v : ℚ)
    (h : firstExceeding line = some v) : mkRat 1 100 < |v| := by
  rw [firstExceeding] at h
  obtain ⟨p, _, hfp⟩ := List.exists_of_findSome?_eq_some h
  revert hfp
  cases findWord p line with
  | none => intro hfp; exact absurd hfp (by simp)
  | some w =>
    intro hfp
    dsimp only at hfp
    by_cases hb : mkRat 1 100 < |cleanAmountL w|
    · rw [if_pos hb, Option.some.injEq] at hfp
      rw [← hfp]
      exact hb
    · rw [if_neg hb] at hfp
      exact absurd hfp (by simp)

/-- Claim C7 as amended: the dialect loop stops at the first dialect
whose match strictly exceeds 0.01 in absolute value (not 0.01 itself);
with no such dialect the last matching dialect's value stands and is
accepted exactly when its absolute value is at least 0.01 — so a match of
exactly 0.01 does not stop the loop and can be overridden by a later
dialect.  Parenthesised dialect matches always clean to a non-positive
value. -/
theorem c7_amount_dialects_amended (line : String) :
    (amountOfLine line.data =
      match firstExceeding line.data with
      | some v => some v
      | none =>
        match lastDialectMatch line.data with
        | some v => if |v| < mkRat 1 100 then none else some v
        | none => none) ∧
    (findWord p2Word line.data).all
      (fun w => decide (cleanAmountL w ≤ 0)) = true := by
  constructor
  · rw [amountOfLine, amountLoop_eq]
    have he1 : amtMatchers.findSome? (fun p =>
        match findWord p line.data with
        | some w =>
          if mkRat 1 100 < |cleanAmountL w| then some (cleanAmountL w)
          else none
        | none => none) = firstExceeding line.data := rfl
    have he2 : (amtMatchers.filterMap
        (fun p => (findWord p line.data).map cleanAmountL)).getLast? =
        lastDialectMatch line.data := rfl
    rw [he1, he2]
    cases hfe : firstExceeding line.data with
    | some v =>
      dsimp only
      rw [if_neg (not_lt.mpr (le_of_lt (firstExceeding_bound line.data v hfe)))]
    | none =>
      cases hlm : lastDialectMatch line.data with
      | some v => rfl
      | none => rfl
  · cases hfw : findWord p2Word line.data with
    | none => rfl
    | some w =>
      have hmem : w ∈ splitWS line.data := List.mem_of_find?_eq_some hfw
      have hp : p2Word w = true := List.find?_some hfw
      have hwords := splitWS_words line.data w hmem
      have hstrip : stripL w = w := stripL_of_no_ws w hwords.2
      rw [p2Word] at hp
      simp only [Bool.and_eq_true, decide_eq_true_eq] at hp
      have hle : cleanAmountL w ≤ 0 := by
        apply cleanAmountL_paren_nonpos w
        · rw [hstrip]; exact hp.1.1.1
        · rw [hstrip]; exact hp.1.1.2
      show (decide (cleanAmountL w ≤ 0) = true)
      exact decide_eq_true hle

/-- Counterexample to C7 as stated: on the line `$0.01 (2.00)` the first
dialect matches `$0.01`, whose absolute value is at least 0.01, yet the
loop continues (the break needs strictly more than 0.01) and the
parenthesised dialect overrides the amount to −2.00. -/
theorem c7_counterexample :
    amountOfLine "$0.01 (2.00)".data = some (-2) ∧
    findWord p1Word "$0.01 (2.00)".data = some "$0.01".data ∧
    cleanAmountL "$0.01".data = mkRat 1 100 ∧
    ((-2 : ℚ)) ≠ mkRat 1 100 := by decide

/-! Pass interaction (claim C3) and configuration plumbing (claim C4). -/

/-- Counterexample to C3 as stated: in `exC3`, pass 1 removes the exact
duplicate at index 2, yet pass 2 still counts that row among the
payment's candidate charges — running pass 2 on the frame with pass 1's
removals dropped leaves the payment in place, and the full pipeline
differs from the sequential-exclusion pipeline the claim describes. -/
theorem c3_counterexample :
    findExactDuplicates exC3 = [2] ∧
    (handleCreditCardDuplicates exC3).1 = [0] ∧
    (handleCreditCardDuplicates
      (removeIdxs exC3 (findExactDuplicates exC3))).1 = [] ∧
    removeDuplicates exC3 true true false
      ≠ removeDuplicatesSeq exC3 true true false := by
  decide

/-- Claim C3 as amended: the passes are computed in the fixed order
exact, credit-card, transfer, fuzzy, but each pass inspects the same
unfiltered frame; the removal sets are unioned and dropped once at the
end, so a row removed by an earlier pass still participates in later
passes. -/
theorem c3_passes_amended (txs : List Tx) (rcc rtr aggr : Bool) :
    removeDuplicates txs rcc rtr aggr =
      removeIdxs txs
        (findExactDuplicates txs
          ++ (if rcc then (handleCreditCardDuplicates txs).1 else [])
          ++ (if rtr then handleTransferDuplicates txs else [])
          ++ (if aggr then findSimilarTransactions txs else [])) := by
  rw [removeDuplicates]
  split
  · rename_i h
    rw [List.isEmpty_iff] at h
    subst h
    rfl
  · rfl

/-- Claim C4, demonstrated at the failing inputs: a configuration with
`cc_amount_tolerance` 1.0 behaves exactly like the default — the 100
payment with a 60 charge stays although the configured tolerance accepts
it — and a configuration with `cc_date_window` 3 behaves exactly like the
default — the 500 payment is removed although the configured window holds
no candidate charges.  The pass reads neither configuration entry. -/
theorem c4_config_entries_ignored :
    applyDedup cfgTol1 2 exC4 = applyDedup defaultDedupConfig 2 exC4 ∧
    applyDedup cfgTol1 2 exC4 = exC4 ∧
    specConfiguredDecision cfgTol1.ccDateWindow cfgTol1.ccAmountTolerance exC4
      ⟨0, 100, 50, "online payment"⟩ = true ∧
    applyDedup cfgWin3 2 exC1a = applyDedup defaultDedupConfig 2 exC1a ∧
    applyDedup cfgWin3 2 exC1a =
      [⟨80, "coffee aaa", -200, "a.pdf"⟩, ⟨90, "shop bbb", -310, "b.pdf"⟩] ∧
    (specConfiguredChargeRows cfgWin3.ccDateWindow exC1a
      ⟨0, 500, 100, "online payment"⟩).isEmpty = true := by
  decide

/-! Payment-cycle pass characterisation (claim C1). -/

theorem ccFold_removed (txs : List Tx) :
    ∀ (pays : List CCPayment) (acc : List Nat × Nat × List CCPayment),
      (pays.foldl (ccStep txs) acc).1 =
        acc.1 ++ (pays.filter (fun p =>
          !(ccChargeRows txs p).isEmpty && ccDecision txs p)).map
          CCPayment.index := by
  intro pays
  induction pays with
  | nil => intro acc; simp
  | cons p ps ih =>
    intro acc
    rw [List.foldl_cons, List.filter_cons]
    by_cases h1 : (ccChargeRows txs p).isEmpty = true
    · rw [show ccStep txs acc p = (acc.1, acc.2.1, acc.2.2 ++ [p]) by
        rw [ccStep, if_pos h1]]
      rw [ih]
      simp [h1]
    · by_cases h2 : ccDecision txs p = true
      · rw [show ccStep txs acc p =
            (acc.1 ++ [p.index], acc.2.1 + (ccChargeRows txs p).length,
              acc.2.2) by rw [ccStep, if_neg h1, if_pos h2]]
        rw [ih]
        simp only [h1, h2, Bool.not_true, Bool.false_and]
        simp [h1, h2, List.append_assoc]
      · rw [show ccStep txs acc p = (acc.1, acc.2.1, acc.2.2 ++ [p]) by
          rw [ccStep, if_neg h1, if_neg h2]]
        rw [ih]
        simp [h1, h2]

theorem ccFold_unmatched (txs : List Tx) :
    ∀ (pays : List CCPayment) (acc : List Nat × Nat × List CCPayment),
      (pays.foldl (ccStep txs) acc).2.2 =
        acc.2.2 ++ pays.filter (fun p =>
          (ccChargeRows txs p).isEmpty || !ccDecision txs p) := by
  intro pays
  induction pays with
  | nil => intro acc; simp
  | cons p ps ih =>
    intro acc
    rw [List.foldl_cons, List.filter_cons]
    by_cases h1 : (ccChargeRows txs p).isEmpty = true
    · rw [show ccStep txs acc p = (acc.1, acc.2.1, acc.2.2 ++ [p]) by
        rw [ccStep, if_pos h1]]
      rw [ih]
      simp [h1]
    · by_cases h2 : ccDecision txs p = true
      · rw [show ccStep txs acc p =
            (acc.1 ++ [p.index], acc.2.1 + (ccChargeRows txs p).length,
              acc.2.2) by rw [ccStep, if_neg h1, if_pos h2]]
        rw [ih]
        simp [h1, h2]
      · rw [show ccStep txs acc p = (acc.1, acc.2.1, acc.2.2 ++ [p]) by
          rw [ccStep, if_neg h1, if_neg h2]]
        rw [ih]
        simp [h1, h2, List.append_assoc]

theorem handleCC_removed (txs : List Tx) :
    (handleCreditCardDuplicates txs).1 =
      ((ccPaymentsOf txs).filter (fun p =>
        !(ccChargeRows txs p).isEmpty && ccDecision txs p)).map
        CCPayment.index := by
  rw [handleCreditCardDuplicates]
  dsimp only
  rw [ccFold_removed]
  rfl

theorem handleCC_unmatched (txs : List Tx) :
    (handleCreditCardDuplicates txs).2.unmatched =
      (ccPaymentsOf txs).filter (fun p =>
        (ccChargeRows txs p).isEmpty || !ccDecision txs p) := by
  rw [handleCreditCardDuplicates]
  dsimp only
  rw [ccFold_unmatched]
  rfl

theorem mem_ccPaymentsOf (txs : List Tx) (i : Nat) (t : Tx)
    (hget : txs[i]? = some t)
    (hcc : isCreditCardPayment t.description t.amount = true) :
    (⟨i, |t.amount|, t.date, t.description⟩ : CCPayment) ∈ ccPaymentsOf txs := by
  rw [ccPaymentsOf, List.mem_filterMap]
  refine ⟨(i, t), List.mk_mem_enum_iff_getElem?.mpr hget, ?_⟩
  rw [if_pos hcc]

theorem ccPaymentsOf_index (txs : List Tx) (p : CCPayment)
    (hp : p ∈ ccPaymentsOf txs) :
    ∃ u, txs[p.index]? = some u ∧
      isCreditCardPayment u.description u.amount = true ∧
      p = ⟨p.index, |u.amount|, u.date, u.description⟩ := by
  rw [ccPaymentsOf, List.mem_filterMap] at hp
  obtain ⟨⟨j, u⟩, hmem, hf⟩ := hp
  revert hf
  split
  · rename_i hcc
    intro hf
    rw [Option.some.injEq] at hf
    subst hf
    exact ⟨u, List.mk_mem_enum_iff_getElem?.mp hmem, hcc, rfl⟩
  · intro hf; exact absurd hf (by simp)


/-- Claim C1: a credit-card payment row is removed by the payment-cycle
pass exactly when the sum of magnitudes of its candidate charges (the
negative, non-payment, non-transfer rows dated within
[payment − 45 days, payment + 2 days], excluding the payment row itself)
differs from the payment magnitude by at most 15% of that magnitude; a
payment that is not removed is recorded among the report's unmatched
payments (an empty candidate set fails the tolerance automatically, since
the payment magnitude is positive). -/
theorem c1_payment_cycle (txs : List Tx) (i : Nat) (t : Tx)
    (hget : txs[i]? = some t)
    (hcc : isCreditCardPayment t.description t.amount = true) :
    (i ∈ (handleCreditCardDuplicates txs).1 ↔
      |ccTotalCharges txs ⟨i, abs t.amount, t.date, t.description⟩
          - abs t.amount|
        ≤ (abs t.amount) * (15 / 100)) ∧
    (i ∉ (handleCreditCardDuplicates txs).1 ↔
      (⟨i, abs t.amount, t.date, t.description⟩ : CCPayment) ∈
        (handleCreditCardDuplicates txs).2.unmatched) := by
  set pay : CCPayment := ⟨i, abs t.amount, t.date, t.description⟩ with hpay
  have hmem := mem_ccPaymentsOf txs i t hget hcc
  have hneg : t.amount < 0 := by
    by_contra hge
    rw [isCreditCardPayment, if_pos (not_lt.mp hge)] at hcc
    exact Bool.false_ne_true hcc
  have hpos : (0 : ℚ) < |t.amount| := abs_pos.mpr (ne_of_lt hneg)
  have hdec : ccDecision txs pay = true ↔
      |ccTotalCharges txs pay - abs t.amount| ≤ (abs t.amount) * (15 / 100) := by
    rw [ccDecision, decide_eq_true_eq, qSub_eq, qMul_eq, mkRat_15_100]
  have hempty_total : (ccChargeRows txs pay).isEmpty = true →
      ccTotalCharges txs pay = 0 := by
    intro h
    rw [List.isEmpty_iff] at h
    rw [ccTotalCharges, h]
    simp
  have hcond_ne : (|ccTotalCharges txs pay - abs t.amount| ≤
      (abs t.amount) * (15 / 100)) → ¬ (ccChargeRows txs pay).isEmpty = true := by
    intro hcond hemp
    rw [hempty_total hemp, zero_sub, abs_neg, abs_abs] at hcond
    nlinarith [hpos, hcond]
  have huniq : ∀ p' ∈ ccPaymentsOf txs, p'.index = i → p' = pay := by
    intro p' hp' hidx
    obtain ⟨u, hgu, _, hpu⟩ := ccPaymentsOf_index txs p' hp'
    rw [hidx, hget, Option.some.injEq] at hgu
    rw [hpu, hidx, ← hgu]
  have hrem_iff : i ∈ (handleCreditCardDuplicates txs).1 ↔
      (!(ccChargeRows txs pay).isEmpty && ccDecision txs pay) = true := by
    rw [handleCC_removed]
    constructor
    · intro hin
      rw [List.mem_map] at hin
      obtain ⟨p', hp', hidx⟩ := hin
      rw [List.mem_filter] at hp'
      rw [huniq p' hp'.1 hidx] at hp'
      exact hp'.2
    · intro hc
      exact List.mem_map.mpr ⟨pay, List.mem_filter.mpr ⟨hmem, hc⟩, rfl⟩
  constructor
  · rw [hrem_iff, Bool.and_eq_true, Bool.not_eq_true']
    constructor
    · intro hc
      exact hdec.mp hc.2
    · intro hc
      exact ⟨Bool.eq_false_iff.mpr (hcond_ne hc), hdec.mpr hc⟩
  · rw [hrem_iff, handleCC_unmatched]
    constructor
    · intro hnot
      refine List.mem_filter.mpr ⟨hmem, ?_⟩
      rw [Bool.or_eq_true, Bool.not_eq_true']
      by_cases hemp : (ccChargeRows txs pay).isEmpty = true
      · exact Or.inl hemp
      · right
        by_contra hdec2
        rw [Bool.not_eq_false] at hdec2
        exact hnot (by
          rw [Bool.and_eq_true, Bool.not_eq_true']
          exact ⟨Bool.eq_false_iff.mpr hemp, hdec2⟩)
    · intro hunm hin
      rw [List.mem_filter, Bool.or_eq_true, Bool.not_eq_true'] at hunm
      rw [Bool.and_eq_true, Bool.not_eq_true'] at hin
      rcases hunm.2 with hemp | hdec2
      · rw [hin.1] at hemp
        exact absurd hemp (by simp)
      · rw [hin.2] at hdec2
        exact absurd hdec2 (by simp)


/-- Witness for C1: the 500 payment against charges summing to 510 is
removed, and against a single 300 charge it is kept and flagged
unmatched. -/
theorem c1_payment_cycle_witness :
    0 ∈ (handleCreditCardDuplicates exC1a).1 ∧
    0 ∉ (handleCreditCardDuplicates exC1b).1 ∧
    (⟨0, 500, 100, "online payment"⟩ : CCPayment) ∈
      (handleCreditCardDuplicates exC1b).2.unmatched := by
  have h1 := (c1_payment_cycle exC1a 0 ⟨100, "online payment", -500, "a.pdf"⟩ rfl
    (by decide)).1
  have h2full := c1_payment_cycle exC1b 0 ⟨100, "online payment", -500, "a.pdf"⟩ rfl
    (by decide)
  have hnot : 0 ∉ (handleCreditCardDuplicates exC1b).1 := by
    intro hmem
    have hc := h2full.1.mp hmem
    rw [show ccTotalCharges exC1b ⟨0, abs (-500 : ℚ), 100, "online payment"⟩
      = 300 from by decide] at hc
    norm_num at hc
  refine ⟨?_, hnot, ?_⟩
  · apply h1.mpr
    rw [show ccTotalCharges exC1a ⟨0, abs (-500 : ℚ), 100, "online payment"⟩
      = 510 from by decide]
    norm_num
  · have hu := h2full.2.mp hnot
    norm_num at hu
    exact hu

/-! Categorizer range (claims C2 and C8). -/

theorem fuzzyFold_range (dl : List Char) (t : ℤ) :
    ∀ (ms : List (String × String)) (acc : Option String × ℤ),
      (ms.foldl (fuzzyStep t dl) acc).1 = acc.1 ∨
        ∃ m ∈ ms, (ms.foldl (fuzzyStep t dl) acc).1 = some m.2 := by
  intro ms
  induction ms with
  | nil => intro acc; exact Or.inl rfl
  | cons m rest ih =>
    intro acc
    rw [List.foldl_cons]
    rcases ih (fuzzyStep t dl acc m) with h | ⟨m', hm', h⟩
    · rw [h, fuzzyStep]
      split
      · exact Or.inr ⟨m, List.mem_cons_self m rest, rfl⟩
      · exact Or.inl rfl
    · exact Or.inr ⟨m', List.mem_cons_of_mem m hm', h⟩

theorem fuzzyMatchMerchant_range (d : List Char) (t : ℤ) (c : String)
    (h : fuzzyMatchMerchant d t = some c) :
    c ∈ knownMerchants.map Prod.snd := by
  rw [fuzzyMatchMerchant] at h
  split at h
  · exact absurd h (by simp)
  · dsimp only at h
    rcases fuzzyFold_range (lowerL d)
        (if 0 ≤ t ∧ t ≤ 100 then t else 85) knownMerchants (none, 0) with
      h2 | ⟨m, hm, h2⟩
    · rw [h2] at h; exact absurd h (by simp)
    · rw [h2, Option.some.injEq] at h
      subst h
      exact List.mem_map_of_mem Prod.snd hm

theorem pickMax_fold_mem (xs : List (String × Nat)) :
    ∀ (x : String × Nat), xs.foldl pickMax x = x ∨ xs.foldl pickMax x ∈ xs := by
  induction xs with
  | nil => intro x; exact Or.inl rfl
  | cons y ys ih =>
    intro x
    rw [List.foldl_cons]
    rcases ih (pickMax x y) with h | h
    · rw [h, pickMax]
      split
      · exact Or.inr (List.mem_cons_self y ys)
      · exact Or.inl rfl
    · exact Or.inr (List.mem_cons_of_mem y h)

theorem keywordBest_range (dl : List Char) (c : String)
    (h : keywordBest dl = some c) : c ∈ spendingCategories.map Prod.fst := by
  rw [keywordBest] at h
  dsimp only at h
  revert h
  cases hs : spendingCategories.filterMap (fun p =>
      if 0 < categoryScore p.2 dl then some (p.1, categoryScore p.2 dl)
      else none) with
  | nil => intro h; exact absurd h (by simp)
  | cons x xs =>
    intro h
    rw [Option.some.injEq] at h
    have hmem : xs.foldl pickMax x ∈ x :: xs := by
      rcases pickMax_fold_mem xs x with h2 | h2
      · rw [h2]; exact List.mem_cons_self x xs
      · exact List.mem_cons_of_mem x h2
    rw [← hs] at hmem
    obtain ⟨p, hp, hfp⟩ := List.mem_filterMap.mp hmem
    revert hfp
    split
    · intro hfp
      rw [Option.some.injEq] at hfp
      rw [← h, ← hfp]
      exact List.mem_map_of_mem Prod.fst hp
    · intro hfp; exact absurd hfp (by simp)

theorem categorizeByAmount_range (a : PyF) (d : List Char) (c : String)
    (h : categorizeByAmount a d = some c) :
    c ∈ ["Banking & Fees", "Food & Dining", "Transportation", "Groceries",
      "Bills & Utilities", "Healthcare", "Education"] := by
  rw [categorizeByAmount] at h
  dsimp only at h
  split_ifs at h <;> simp_all

theorem categorizeByTiming_range (d : List Char) (dt : PyDateTime) (c : String)
    (h : categorizeByTiming d dt = some c) :
    c ∈ ["Entertainment", "Bills & Utilities"] := by
  rw [categorizeByTiming] at h
  split_ifs at h <;> simp_all

theorem multiPass_mem (d : List Char) (a : PyF) (dt : Option PyDateTime) :
    multiPass d a dt ∈ ("Electronics" :: closedCategorySet) := by
  rw [multiPass]
  split_ifs
  · decide
  · decide
  · decide
  · decide
  · cases hf : fuzzyMatchMerchant (normalizeMerchantName d) 85 with
    | some c =>
      have hr := fuzzyMatchMerchant_range _ _ _ hf
      have hsub : ∀ x ∈ knownMerchants.map Prod.snd,
          x ∈ ("Electronics" :: closedCategorySet) := by decide
      exact hsub _ hr
    | none =>
      cases ha : categorizeByAmount a (normalizeMerchantName d) with
      | some c =>
        have hr := categorizeByAmount_range _ _ _ ha
        have hsub : ∀ x ∈ ["Banking & Fees", "Food & Dining",
            "Transportation", "Groceries", "Bills & Utilities", "Healthcare",
            "Education"], x ∈ ("Electronics" :: closedCategorySet) := by decide
        exact hsub _ hr
      | none =>
        cases ht : dt.bind
            (fun dd => categorizeByTiming (normalizeMerchantName d) dd) with
        | some c =>
          have hr : c ∈ ["Entertainment", "Bills & Utilities"] := by
            cases dt with
            | none => exact absurd ht (by simp)
            | some dd =>
              rw [Option.some_bind] at ht
              exact categorizeByTiming_range _ _ _ ht
          have hsub : ∀ x ∈ ["Entertainment", "Bills & Utilities"],
              x ∈ ("Electronics" :: closedCategorySet) := by decide
          exact hsub _ hr
        | none =>
          cases hk : keywordBest (lowerL (normalizeMerchantName d)) with
          | some c =>
            have hr := keywordBest_range _ _ hk
            have hsub : ∀ x ∈ spendingCategories.map Prod.fst,
                x ∈ ("Electronics" :: closedCategorySet) := by decide
            exact hsub _ hr
          | none => decide

/-- Counterexample to C2 as stated: the description `apple` is fuzzy
matched to the merchant table's `Electronics`, a label outside the
specification's closed category set. -/
theorem c2_counterexample :
    categorizeTransaction (PyVal.str "apple") (PyVal.num (-1)) none
      = "Electronics" ∧ "Electronics" ∉ closedCategorySet := by
  constructor
  · decide
  · decide

/-- Claim C2 as amended: for every description, amount and date the
categorizer returns exactly one non-empty category, drawn from the closed
set enlarged with the merchant table's extra label `Electronics`. -/
theorem c2_category_range (description : String) (amount : ℚ)
    (date : Option PyDateTime) :
    categorizeTransaction (PyVal.str description) (PyVal.num amount) date ∈
      ("Electronics" :: closedCategorySet) ∧
    categorizeTransaction (PyVal.str description) (PyVal.num amount) date
      ≠ "" := by
  have hm := multiPass_mem description.data (PyF.fin amount) date
  have hne : ∀ x ∈ ("Electronics" :: closedCategorySet), x ≠ "" := by decide
  exact ⟨hm, hne _ hm⟩

/-- Claim C8: the public categorizer entry point is total on every
modelled Python input — the result is always a non-empty category
string — and malformed inputs are coerced: a non-numeric amount string
behaves as amount 0.0, a missing amount behaves as 0.0, and a missing
description behaves as the empty string (a missing date simply skips the
timing heuristic, the `Option` in the model). -/
theorem c8_categorizer_total (d a : PyVal) (dt : Option PyDateTime)
    (s : String) (hs : pyFloatFull s.data = none) :
    categorizeTransaction d a dt ≠ "" ∧
    categorizeTransaction d a dt ∈ ("Electronics" :: closedCategorySet) ∧
    categorizeTransaction d (PyVal.str s) dt
      = categorizeTransaction d (PyVal.num 0) dt ∧
    categorizeTransaction d PyVal.pynone dt
      = categorizeTransaction d (PyVal.num 0) dt ∧
    categorizeTransaction PyVal.pynone a dt
      = categorizeTransaction (PyVal.str "") a dt := by
  have hm := multiPass_mem (coerceDesc d).data (coerceAmount a) dt
  have hne : ∀ x ∈ ("Electronics" :: closedCategorySet), x ≠ "" := by decide
  refine ⟨hne _ hm, hm, ?_, rfl, rfl⟩
  show multiPass (coerceDesc d).data
    ((pyFloatFull s.data).getD (PyF.fin 0)) dt = _
  rw [hs]
  rfl

/-- Witness for C8 at a concrete malformed input: the non-numeric amount
string `abc` fails `float()` and is treated as 0.0. -/
theorem c8_categorizer_total_witness :
    categorizeTransaction (PyVal.str "zzz qqq") (PyVal.str "abc") none
      = categorizeTransaction (PyVal.str "zzz qqq") (PyVal.num 0) none :=
  (c8_categorizer_total (PyVal.str "zzz qqq") (PyVal.num 0) none "abc"
    (by decide)).2.2.1

theorem sameKeyP_refl (p : Nat × Tx) : sameKeyP p p := ⟨rfl, rfl⟩

theorem sameKeyP_symm {p q : Nat × Tx} (h : sameKeyP p q) : sameKeyP q p :=
  ⟨h.1.symm, h.2.symm⟩

theorem sameKeyP_trans {p q r : Nat × Tx} (h1 : sameKeyP p q)
    (h2 : sameKeyP p r) : sameKeyP q r :=
  ⟨h2.1.trans h1.1.symm, h2.2.trans h1.2.symm⟩

theorem mem_enumFrom_le (x : Nat × Tx) :
    ∀ (l : List Tx) (n : Nat), x ∈ List.enumFrom n l → n ≤ x.1 := by
  intro l
  induction l with
  | nil => intro n h; simp at h
  | cons t rest ih =>
    intro n h
    rw [show List.enumFrom n (t :: rest) = (n, t) :: List.enumFrom (n + 1) rest
      from rfl, List.mem_cons] at h
    rcases h with h | h
    · rw [h]
    · exact le_of_lt (lt_of_lt_of_le (Nat.lt_succ_self n) (ih (n + 1) h))

theorem enumFrom_pairwise (txs : List Tx) :
    ∀ n, (List.enumFrom n txs).Pairwise (fun a b => a.1 < b.1) := by
  induction txs with
  | nil => intro n; simp
  | cons t rest ih =>
    intro n
    rw [show List.enumFrom n (t :: rest) = (n, t) :: List.enumFrom (n + 1) rest
      from rfl, List.pairwise_cons]
    exact ⟨fun q hq => lt_of_lt_of_le (Nat.lt_succ_self n)
      (mem_enumFrom_le q rest (n + 1) hq), ih (n + 1)⟩

theorem transferRows_pairwise (txs : List Tx) :
    (transferRows txs).Pairwise (fun a b => a.1 < b.1) :=
  List.Pairwise.sublist (List.filter_sublist (List.enumFrom 0 txs))
    (enumFrom_pairwise txs 0)

theorem pairwise_fst_inj {rows : List (Nat × Tx)}
    (hpw : rows.Pairwise (fun a b => a.1 < b.1)) :
    ∀ r ∈ rows, ∀ q ∈ rows, r.1 = q.1 → r = q := by
  induction rows with
  | nil => simp
  | cons a l ih =>
    rw [List.pairwise_cons] at hpw
    intro r hr q hq heq
    rcases List.mem_cons.mp hr with h1 | h1 <;>
      rcases List.mem_cons.mp hq with h2 | h2
    · rw [h1, h2]
    · subst h1; exact absurd (hpw.1 q h2) (by omega)
    · subst h2; exact absurd (hpw.1 r h1) (by omega)
    · exact ih hpw.2 r h1 q h2 heq

theorem msFold_eq :
    ∀ (ms : List (Nat × Tx)) (acc : List Nat × List Nat),
      (∀ q ∈ ms, q.1 ∉ acc.2) → ms.Pairwise (fun a b => a.1 < b.1) →
      ms.foldl (fun a q =>
          if q.1 ∈ a.2 then a else (a.1 ++ [q.1], a.2 ++ [q.1])) acc
        = (acc.1 ++ ms.map Prod.fst, acc.2 ++ ms.map Prod.fst) := by
  intro ms
  induction ms with
  | nil => intro acc _ _; simp
  | cons q ms ih =>
    intro acc hnot hpw
    rw [List.pairwise_cons] at hpw
    rw [List.foldl_cons,
      if_neg (hnot q (List.mem_cons_self q ms))]
    rw [ih (acc.1 ++ [q.1], acc.2 ++ [q.1]) ?_ hpw.2]
    · simp
    · intro q' hq' hmem
      rcases List.mem_append.mp hmem with h | h
      · exact hnot q' (List.mem_cons_of_mem q hq') h
      · rw [List.mem_singleton] at h
        exact absurd (hpw.1 q' hq') (by omega)

theorem mem_ms_iff (rows : List (Nat × Tx)) (e q : Nat × Tx) :
    q ∈ rows.filter (fun q =>
      decide (q.2.date = e.2.date) && decide (|q.2.amount| = |e.2.amount|)
      && decide (q.1 ≠ e.1)) ↔
    q ∈ rows ∧ sameKeyP e q ∧ q.1 ≠ e.1 := by
  rw [List.mem_filter]
  simp [sameKeyP, and_assoc]

theorem transferFold_inv (rows : List (Nat × Tx))
    (hpw : rows.Pairwise (fun a b => a.1 < b.1)) :
    ∀ (todo done : List (Nat × Tx)) (acc : List Nat × List Nat),
      rows = done ++ todo →
      (∀ j, j ∈ acc.1 ↔ ∃ r ∈ rows, r.1 = j ∧ (∃ d ∈ done, sameKeyP d r) ∧
        ∃ q ∈ rows, sameKeyP r q ∧ q.1 < r.1) →
      (∀ j, j ∈ acc.2 ↔ ∃ r ∈ rows, r.1 = j ∧ (∃ d ∈ done, sameKeyP d r) ∧
        ∃ q ∈ rows, sameKeyP r q ∧ q.1 ≠ r.1) →
      ∀ j, j ∈ (todo.foldl (transferStep rows) acc).1 ↔
        ∃ r ∈ rows, r.1 = j ∧ ∃ q ∈ rows, sameKeyP r q ∧ q.1 < r.1 := by
  intro todo
  induction todo with
  | nil =>
    intro done acc hsplit inv1 inv2 j
    rw [List.foldl_nil, inv1 j]
    have hde : done = rows := by rw [hsplit, List.append_nil]
    constructor
    · rintro ⟨r, hr, hri, _, hq⟩
      exact ⟨r, hr, hri, hq⟩
    · rintro ⟨r, hr, hri, hq⟩
      refine ⟨r, hr, hri, ⟨r, ?_, sameKeyP_refl r⟩, hq⟩
      rw [hde]
      exact hr
  | cons e rest ih =>
    intro done acc hsplit inv1 inv2 j
    rw [List.foldl_cons]
    have he_mem : e ∈ rows := by
      rw [hsplit]
      exact List.mem_append_right done (List.mem_cons_self e rest)
    have hd_lt : ∀ d ∈ done, d.1 < e.1 := by
      have hp2 := hpw
      rw [hsplit, List.pairwise_append] at hp2
      exact fun d hd => hp2.2.2 d hd e (List.mem_cons_self e rest)
    have hr_gt : ∀ q ∈ rest, e.1 < q.1 := by
      have hp2 := hpw
      rw [hsplit, List.pairwise_append, List.pairwise_cons] at hp2
      exact fun q hq => hp2.2.1.1 q hq
    have hinj := pairwise_fst_inj hpw
    have hsplit' : rows = (done ++ [e]) ++ rest := by
      rw [hsplit, List.append_assoc, List.singleton_append]
    by_cases hin : e.1 ∈ acc.2
    · rw [show transferStep rows acc e = acc from by
        rw [transferStep, if_pos hin]]
      obtain ⟨re, hre, hrei, hope, hpart⟩ := (inv2 e.1).mp hin
      have hre_eq : re = e := hinj re hre e he_mem hrei
      rw [hre_eq] at hope
      have hopen_iff : ∀ r, ((∃ d ∈ done ++ [e], sameKeyP d r) ↔
          (∃ d ∈ done, sameKeyP d r)) := by
        intro r
        constructor
        · rintro ⟨d, hd, hk⟩
          rcases List.mem_append.mp hd with hd | hd
          · exact ⟨d, hd, hk⟩
          · rw [List.mem_singleton] at hd
            rw [hd] at hk
            obtain ⟨d0, hd0, hk0⟩ := hope
            exact ⟨d0, hd0, sameKeyP_trans (sameKeyP_symm hk0) hk⟩
        · rintro ⟨d, hd, hk⟩
          exact ⟨d, List.mem_append_left _ hd, hk⟩
      refine ih (done ++ [e]) acc hsplit' ?_ ?_ j
      · intro j'
        rw [inv1 j']
        constructor
        · rintro ⟨r, hr, hri, hop, hq⟩
          exact ⟨r, hr, hri, (hopen_iff r).mpr hop, hq⟩
        · rintro ⟨r, hr, hri, hop, hq⟩
          exact ⟨r, hr, hri, (hopen_iff r).mp hop, hq⟩
      · intro j'
        rw [inv2 j']
        constructor
        · rintro ⟨r, hr, hri, hop, hq⟩
          exact ⟨r, hr, hri, (hopen_iff r).mpr hop, hq⟩
        · rintro ⟨r, hr, hri, hop, hq⟩
          exact ⟨r, hr, hri, (hopen_iff r).mp hop, hq⟩
    · by_cases hms : (rows.filter (fun q =>
          decide (q.2.date = e.2.date) && decide (|q.2.amount| = |e.2.amount|)
          && decide (q.1 ≠ e.1))).isEmpty = true
      · rw [show transferStep rows acc e = acc from by
          rw [transferStep, if_neg hin]
          dsimp only
          rw [if_pos hms]]
        rw [List.isEmpty_iff] at hms
        have hnopartner : ∀ q ∈ rows, sameKeyP e q → q.1 = e.1 := by
          intro q hq hk
          by_contra hne
          have hqm : q ∈ rows.filter (fun q =>
              decide (q.2.date = e.2.date)
              && decide (|q.2.amount| = |e.2.amount|)
              && decide (q.1 ≠ e.1)) :=
            (mem_ms_iff rows e q).mpr ⟨hq, hk, hne⟩
          rw [hms] at hqm
          simp at hqm
        have hopen_iff : ∀ r, r ∈ rows → (∃ q ∈ rows, sameKeyP r q ∧ q.1 ≠ r.1) →
            ((∃ d ∈ done ++ [e], sameKeyP d r) ↔
              (∃ d ∈ done, sameKeyP d r)) := by
          intro r hrmem hpart
          constructor
          · rintro ⟨d, hd, hk⟩
            rcases List.mem_append.mp hd with hd | hd
            · exact ⟨d, hd, hk⟩
            · rw [List.mem_singleton] at hd
              rw [hd] at hk
              obtain ⟨q0, hq0, hk0, hne0⟩ := hpart
              have hk1 : sameKeyP e q0 := sameKeyP_trans (sameKeyP_symm hk) hk0
              have hq0e := hnopartner q0 hq0 hk1
              have hre : r.1 = e.1 := hnopartner r hrmem hk
              exact absurd (hq0e.trans hre.symm) hne0
          · rintro ⟨d, hd, hk⟩
            exact ⟨d, List.mem_append_left _ hd, hk⟩
        refine ih (done ++ [e]) acc hsplit' ?_ ?_ j
        · intro j'
          rw [inv1 j']
          constructor
          · rintro ⟨r, hr, hri, hop, q, hq, hkq, hlt⟩
            exact ⟨r, hr, hri,
              (hopen_iff r hr ⟨q, hq, hkq, ne_of_lt hlt⟩).mpr hop, q, hq, hkq, hlt⟩
          · rintro ⟨r, hr, hri, hop, q, hq, hkq, hlt⟩
            exact ⟨r, hr, hri,
              (hopen_iff r hr ⟨q, hq, hkq, ne_of_lt hlt⟩).mp hop, q, hq, hkq, hlt⟩
        · intro j'
          rw [inv2 j']
          constructor
          · rintro ⟨r, hr, hri, hop, q, hq, hkq, hne⟩
            exact ⟨r, hr, hri,
              (hopen_iff r hr ⟨q, hq, hkq, hne⟩).mpr hop, q, hq, hkq, hne⟩
          · rintro ⟨r, hr, hri, hop, q, hq, hkq, hne⟩
            exact ⟨r, hr, hri,
              (hopen_iff r hr ⟨q, hq, hkq, hne⟩).mp hop, q, hq, hkq, hne⟩
      · have hmsne : rows.filter (fun q =>
            decide (q.2.date = e.2.date) && decide (|q.2.amount| = |e.2.amount|)
            && decide (q.1 ≠ e.1)) ≠ [] := by
          intro h
          rw [h] at hms
          simp at hms
        obtain ⟨x, hx⟩ := List.exists_mem_of_ne_nil _ hmsne
        obtain ⟨hx_rows, hkx, hxne⟩ := (mem_ms_iff rows e x).mp hx
        have hnotopened : ¬ ∃ d ∈ done, sameKeyP d e := by
          intro hope
          exact hin ((inv2 e.1).mpr
            ⟨e, he_mem, rfl, hope, x, hx_rows, hkx, hxne⟩)
        have hms_pw : (rows.filter (fun q =>
            decide (q.2.date = e.2.date) && decide (|q.2.amount| = |e.2.amount|)
            && decide (q.1 ≠ e.1))).Pairwise (fun a b => a.1 < b.1) :=
          List.Pairwise.sublist (List.filter_sublist rows) hpw
        have hnot2 : ∀ q ∈ rows.filter (fun q =>
            decide (q.2.date = e.2.date) && decide (|q.2.amount| = |e.2.amount|)
            && decide (q.1 ≠ e.1)), q.1 ∉ acc.2 := by
          intro q hq hq2
          obtain ⟨hq_rows, hkq, hqne⟩ := (mem_ms_iff rows e q).mp hq
          obtain ⟨rq, hrq, hrqi, hrqop, _⟩ := (inv2 q.1).mp hq2
          have hrq_eq : rq = q := hinj rq hrq q hq_rows hrqi
          rw [hrq_eq] at hrqop
          obtain ⟨d, hd, hkdq⟩ := hrqop
          exact hnotopened
            ⟨d, hd, sameKeyP_trans (sameKeyP_symm hkdq) (sameKeyP_symm hkq)⟩
        have hq_rest : ∀ q ∈ rows.filter (fun q =>
            decide (q.2.date = e.2.date) && decide (|q.2.amount| = |e.2.amount|)
            && decide (q.1 ≠ e.1)), e.1 < q.1 := by
          intro q hq
          obtain ⟨hq_rows, hkq, hqne⟩ := (mem_ms_iff rows e q).mp hq
          rw [hsplit] at hq_rows
          rcases List.mem_append.mp hq_rows with hq1 | hq1
          · exact absurd ⟨q, hq1, sameKeyP_symm hkq⟩ hnotopened
          · rcases List.mem_cons.mp hq1 with hq2 | hq2
            · exact absurd (congrArg Prod.fst hq2) hqne
            · exact hr_gt q hq2
        rw [show transferStep rows acc e =
            (acc.1 ++ (rows.filter (fun q =>
              decide (q.2.date = e.2.date)
              && decide (|q.2.amount| = |e.2.amount|)
              && decide (q.1 ≠ e.1))).map Prod.fst,
             (acc.2 ++ (rows.filter (fun q =>
              decide (q.2.date = e.2.date)
              && decide (|q.2.amount| = |e.2.amount|)
              && decide (q.1 ≠ e.1))).map Prod.fst) ++ [e.1]) from by
          rw [transferStep, if_neg hin]
          dsimp only
          rw [if_neg hms, msFold_eq _ acc hnot2 hms_pw]]
        refine ih (done ++ [e]) _ hsplit' ?_ ?_ j
        · intro j'
          constructor
          · intro hj
            rcases List.mem_append.mp hj with hj | hj
            · obtain ⟨r, hr, hri, ⟨d, hd, hk⟩, hq⟩ := (inv1 j').mp hj
              exact ⟨r, hr, hri, ⟨d, List.mem_append_left _ hd, hk⟩, hq⟩
            · rw [List.mem_map] at hj
              obtain ⟨q, hq, hqj⟩ := hj
              have hq2 := hq
              obtain ⟨hq_rows, hkq, hqne⟩ := (mem_ms_iff rows e q).mp hq2
              exact ⟨q, hq_rows, hqj,
                ⟨e, List.mem_append_right _ (List.mem_singleton.mpr rfl), hkq⟩,
                e, he_mem, sameKeyP_symm hkq, hq_rest q hq⟩
          · rintro ⟨r, hr, hri, ⟨d, hd, hk⟩, q, hq, hkq, hlt⟩
            rcases List.mem_append.mp hd with hd | hd
            · exact List.mem_append_left _
                ((inv1 j').mpr ⟨r, hr, hri, ⟨d, hd, hk⟩, q, hq, hkq, hlt⟩)
            · rw [List.mem_singleton] at hd
              rw [hd] at hk
              by_cases hre : r = e
              · rw [hre] at hkq hlt
                rw [hsplit] at hq
                rcases List.mem_append.mp hq with hq1 | hq1
                · exact absurd ⟨q, hq1, sameKeyP_symm hkq⟩ hnotopened
                · rcases List.mem_cons.mp hq1 with hq2 | hq2
                  · rw [hq2] at hlt
                    exact absurd hlt (lt_irrefl e.1)
                  · exact absurd hlt (not_lt_of_gt (hr_gt q hq2))
              · have hrne : r.1 ≠ e.1 := fun h => hre (hinj r hr e he_mem h)
                have hrm : r ∈ rows.filter (fun q =>
                    decide (q.2.date = e.2.date)
                    && decide (|q.2.amount| = |e.2.amount|)
                    && decide (q.1 ≠ e.1)) :=
                  (mem_ms_iff rows e r).mpr ⟨hr, hk, hrne⟩
                exact List.mem_append_right _ (List.mem_map.mpr ⟨r, hrm, hri⟩)
        · intro j'
          constructor
          · intro hj
            rcases List.mem_append.mp hj with hj | hj
            · rcases List.mem_append.mp hj with hj | hj
              · obtain ⟨r, hr, hri, ⟨d, hd, hk⟩, hq⟩ := (inv2 j').mp hj
                exact ⟨r, hr, hri, ⟨d, List.mem_append_left _ hd, hk⟩, hq⟩
              · rw [List.mem_map] at hj
                obtain ⟨q, hq, hqj⟩ := hj
                obtain ⟨hq_rows, hkq, hqne⟩ := (mem_ms_iff rows e q).mp hq
                exact ⟨q, hq_rows, hqj,
                  ⟨e, List.mem_append_right _ (List.mem_singleton.mpr rfl), hkq⟩,
                  e, he_mem, sameKeyP_symm hkq, Ne.symm hqne⟩
            · rw [List.mem_singleton] at hj
              exact ⟨e, he_mem, hj.symm,
                ⟨e, List.mem_append_right _ (List.mem_singleton.mpr rfl),
                  sameKeyP_refl e⟩,
                x, hx_rows, hkx, hxne⟩
          · rintro ⟨r, hr, hri, ⟨d, hd, hk⟩, q, hq, hkq, hne⟩
            rcases List.mem_append.mp hd with hd | hd
            · exact List.mem_append_left _ (List.mem_append_left _
                ((inv2 j').mpr ⟨r, hr, hri, ⟨d, hd, hk⟩, q, hq, hkq, hne⟩))
            · rw [List.mem_singleton] at hd
              rw [hd] at hk
              by_cases hre : r = e
              · rw [hre] at hri
                exact List.mem_append_right _ (List.mem_singleton.mpr hri.symm)
              · have hrne : r.1 ≠ e.1 := fun h => hre (hinj r hr e he_mem h)
                have hrm : r ∈ rows.filter (fun q =>
                    decide (q.2.date = e.2.date)
                    && decide (|q.2.amount| = |e.2.amount|)
                    && decide (q.1 ≠ e.1)) :=
                  (mem_ms_iff rows e r).mpr ⟨hr, hk, hrne⟩
                exact List.mem_append_left _ (List.mem_append_right _
                  (List.mem_map.mpr ⟨r, hrm, hri⟩))

theorem mem_transferRows_iff (txs : List Tx) (p : Nat × Tx) :
    p ∈ transferRows txs ↔
      txs[p.1]? = some p.2 ∧ isTransferTransaction p.2.description = true := by
  obtain ⟨a, b⟩ := p
  rw [transferRows, List.mem_filter, List.mk_mem_enum_iff_getElem?]
  exact Iff.rfl

/-- Claim C6: among transfer-keyword rows, whenever two or more share the same
date and absolute amount, the transfer pass keeps exactly the first by index
and removes the others; transfer rows with no partner are kept. -/
theorem c6_transfer_first_kept (txs : List Tx) (i : Nat) :
    i ∈ handleTransferDuplicates txs ↔
      ∃ t, txs[i]? = some t ∧ isTransferTransaction t.description = true ∧
        ∃ j u, j < i ∧ txs[j]? = some u ∧
          isTransferTransaction u.description = true ∧
          u.date = t.date ∧ |u.amount| = |t.amount| := by
  have hpw := transferRows_pairwise txs
  have h1 : ∀ j : Nat, j ∈ (([], []) : List Nat × List Nat).1 ↔
      ∃ r ∈ transferRows txs, r.1 = j ∧
        (∃ d ∈ ([] : List (Nat × Tx)), sameKeyP d r) ∧
        ∃ q ∈ transferRows txs, sameKeyP r q ∧ q.1 < r.1 := by
    simp
  have h2 : ∀ j : Nat, j ∈ (([], []) : List Nat × List Nat).2 ↔
      ∃ r ∈ transferRows txs, r.1 = j ∧
        (∃ d ∈ ([] : List (Nat × Tx)), sameKeyP d r) ∧
        ∃ q ∈ transferRows txs, sameKeyP r q ∧ q.1 ≠ r.1 := by
    simp
  have hiff : i ∈ handleTransferDuplicates txs ↔
      ∃ r ∈ transferRows txs, r.1 = i ∧
        ∃ q ∈ transferRows txs, sameKeyP r q ∧ q.1 < r.1 :=
    transferFold_inv (transferRows txs) hpw (transferRows txs) [] ([], [])
      rfl h1 h2 i
  rw [hiff]
  constructor
  · rintro ⟨r, hr, hri, q, hq, hkq, hlt⟩
    obtain ⟨hrg, hrt⟩ := (mem_transferRows_iff txs r).mp hr
    obtain ⟨hqg, hqt⟩ := (mem_transferRows_iff txs q).mp hq
    rw [hri] at hrg
    exact ⟨r.2, hrg, hrt, q.1, q.2, hri ▸ hlt, hqg, hqt, hkq.1, hkq.2⟩
  · rintro ⟨t, hti, htr, j, u, hji, hju, hur, hud, hua⟩
    refine ⟨(i, t), (mem_transferRows_iff txs (i, t)).mpr ⟨hti, htr⟩, rfl,
      (j, u), (mem_transferRows_iff txs (j, u)).mpr ⟨hju, hur⟩, ⟨hud, hua⟩, hji⟩

end VaultFinance
